import Mathlib

/-!
# monitor-http-log-go: time-series store, aggregator and alerter

A shallow embedding of `timeseries.go`, `alerter.go`, the aggregator of `main.go` and
`http_hit.go`.

Modelling conventions

* A `time.Time` is an instant and a location. The instant is an `Int`: nanoseconds
  elapsed since Go's zero time; it is all that `time.Since`, `IsZero` and `Truncate`
  look at. The location is the `*Location` the value carries, which the operator
  `!=` compares too. A Go field or argument of type `time.Time` is therefore two
  fields or arguments here: `time` (the instant) and `loc`.
* `time.Duration` is an `Int` number of nanoseconds. `Time.Sub` (hence
  `time.Since`) saturates at the bounds of `int64`, as in the Go library.
* A method that reads the clock takes the reading `now` as an argument; all the
  readings made during one call are taken at that one instant.
* The `sync.RWMutex` is not represented: every method body runs under the lock,
  so it is modelled as one atomic function of the state.
* The byte counter `totalBits` is a Go `int`: an addition wraps around at 64 bits.
  Hit counters grow by one per event and would need `2^63` events to wrap: they are
  unbounded `Int`s.
* A run-time panic (index or slice bound out of range) is the `none` result.
* `float64` arithmetic is exact: a finite value is the rational it would hold
  without rounding; NaN and the infinities are kept apart.
-/

namespace MonitorHttpLog

/-! ## `time` package primitives -/

/-- The constant `time.Second`, in nanoseconds. -/
def second : Int := 1000000000

/-- Largest `time.Duration` (`math.MaxInt64` nanoseconds). -/
def maxDuration : Int := 9223372036854775807

/-- Smallest `time.Duration` (`math.MinInt64` nanoseconds). -/
def minDuration : Int := -9223372036854775808

/-- Go `Time.Sub`: the difference `t - u`, replaced by the largest (smallest)
duration when it exceeds what a `Duration` can hold. -/
def timeSub (t u : Int) : Int :=
  if t - u > maxDuration then maxDuration
  else if t - u < minDuration then minDuration
  else t - u

/-- Go `time.Since(t)`, which is `time.Now().Sub(t)`, with the clock reading `now`. -/
def since (now t : Int) : Int := timeSub now t

/-- Go `Duration.Truncate(m)`: rounds `d` toward zero to a multiple of `m`
(`d - d % m` with Go's truncated remainder); `d` itself when `m <= 0`. -/
def durTruncate (d m : Int) : Int :=
  if m ≤ 0 then d else d - Int.tmod d m

/-! ## Data model (`timeseries.go`) -/

/-- Go `type sectionName string`. -/
abbrev sectionName := String

/-- Go `map[sectionName]int`: a finite map with unique keys. -/
abbrev SectionHits := AList (fun _ : sectionName => Int)

instance : DecidableEq SectionHits := fun a b =>
  decidable_of_iff (a.entries = b.entries) AList.ext_iff.symm

/-- The `*Location` carried by a `time.Time`, as the operator `!=` sees it: an address.
`nilLoc` is the nil pointer of the zero `Time` (and of UTC), `localLoc` the address of
`time.Local`, which `time.Now()` and a parsed time whose offset is the local one carry;
`fixedZone id` is any other location, such as the one `time.Parse` fabricates for an
offset that is not the local one. -/
inductive Location where
  | nilLoc
  | localLoc
  | fixedZone (id : Nat)
  deriving DecidableEq

/-- Go `Row`: one second worth of HTTP traffic. The Go field `time` is the pair of
`time` (its instant) and `loc` (its location). -/
structure Row where
  time : Int
  loc : Location
  totalHits : Int
  totalBits : Int
  perSectionHits : SectionHits
  deriving DecidableEq

/-- Go `Timeseries` (the embedded mutex left out). -/
structure Timeseries where
  retention : Int
  s : List Row
  deriving DecidableEq

/-- The loop of `insert`: `for time.Since(ts.s[0].time) > ts.retention { ts.s = ts.s[1:] }`.
Reading `ts.s[0]` of an empty slice panics. -/
def evictExpired (now retention : Int) : List Row → Option (List Row)
  | [] => none
  | r :: rest =>
    if since now r.time > retention then evictExpired now retention rest
    else some (r :: rest)

/-- Go `Timeseries.insert`: appends the row, then deletes expired rows from the front. -/
def Timeseries.insert (ts : Timeseries) (now : Int) (row : Row) : Option Timeseries :=
  (evictExpired now ts.retention (ts.s ++ [row])).map (fun s => { ts with s := s })

/-- A run of `insert` calls, each with its own clock reading; stops at the first panic. -/
def Timeseries.insertAll : Timeseries → List (Int × Row) → Option Timeseries
  | ts, [] => some ts
  | ts, (now, row) :: rest => (ts.insert now row).bind (fun ts1 => Timeseries.insertAll ts1 rest)

/-- Rows are strictly increasing by timestamp. -/
def StrictlyIncreasing (rows : List Row) : Prop :=
  rows.Pairwise (fun a b => a.time < b.time)

instance (rows : List Row) : Decidable (StrictlyIncreasing rows) := by
  unfold StrictlyIncreasing; infer_instance

/-- The loop condition of `GetRowsSince` for one row:
`time.Since(row.time).Truncate(time.Second) <= since`. -/
def inWindow (now d : Int) (r : Row) : Bool :=
  decide (durTruncate (since now r.time) second ≤ d)

/-- Go `Timeseries.GetRowsSince`: walks the slice from its last row toward the first,
collecting rows until the loop condition fails. -/
def Timeseries.GetRowsSince (ts : Timeseries) (now d : Int) : List Row :=
  ts.s.reverse.takeWhile (inWindow now d)

/-- Go `NewTimeseries`. `none` is the panic of `make` on a negative capacity,
`some (.error _)` the returned error, `some (.ok _)` the returned store. -/
def NewTimeseries (retention : Int) : Option (Except String Timeseries) :=
  if durTruncate retention second ≠ retention then
    some (.error "retention period must be a multiple of time.Second")
  else if Int.tdiv retention second < 0 then none
  else some (.ok { retention := retention, s := [] })

/-! ## `float64` results

A finite `float64` is represented by the exact rational it would hold without
rounding; the two infinities and NaN are separate values. -/

/-- A `float64` value. -/
inductive F64 where
  | num (q : ℚ)
  | inf (negative : Bool)
  | nan
  deriving DecidableEq

/-- Go `float64(a) / float64(b)` for integers `a` and `b`: a zero divisor gives NaN for
`0/0` and a signed infinity otherwise. -/
def floatDiv (a b : Int) : F64 :=
  if b = 0 then (if a = 0 then F64.nan else F64.inf (decide (a < 0)))
  else F64.num ((a : ℚ) / (b : ℚ))

/-- Go `x >= y` on `float64`: false as soon as one side is NaN. -/
def F64.ge : F64 → F64 → Bool
  | F64.nan, _ => false
  | _, F64.nan => false
  | F64.num a, F64.num b => decide (b ≤ a)
  | F64.inf n, F64.num _ => !n
  | F64.num _, F64.inf n => n
  | F64.inf n1, F64.inf n2 => !n1 || n2

/-- Go `x < y` on `float64`: false as soon as one side is NaN. -/
def F64.lt : F64 → F64 → Bool
  | F64.nan, _ => false
  | _, F64.nan => false
  | F64.num a, F64.num b => decide (a < b)
  | F64.inf n, F64.num _ => n
  | F64.num _, F64.inf n => !n
  | F64.inf n1, F64.inf n2 => n1 && !n2

/-- The accumulation loop of `GetAvgRate`: `hits += float64(row.totalHits)` and
`bytes += float64(row.totalBits)` over the rows. -/
def sumRates (rows : List Row) : Int × Int :=
  rows.foldl (fun acc row => (acc.1 + row.totalHits, acc.2 + row.totalBits)) (0, 0)

/-- Go `Timeseries.GetAvgRate`. -/
def Timeseries.GetAvgRate (ts : Timeseries) (now d : Int) : F64 × F64 :=
  let acc := sumRates (ts.GetRowsSince now d)
  let secs := Int.tdiv d second
  (floatDiv acc.1 secs, floatDiv acc.2 secs)

/-! ## Top sections -/

/-- Go `SectionStats`. -/
structure SectionStats where
  sectionName : sectionName
  hits : Int
  deriving DecidableEq

/-- The order in which `range` visits the entries of a map. Go leaves it unspecified, so
it is any rearrangement of the entries: every `range` of a call visits the entries of its
map in the order `order` gives for them. -/
structure MapOrder where
  order : List (Sigma (fun _ : sectionName => Int)) → List (Sigma (fun _ : sectionName => Int))
  perm : ∀ l, (order l).Perm l

/-- The closure given to `sort.Slice`: `allSections[i].hits > allSections[j].hits`. -/
def lessHits (a b : SectionStats) : Bool := decide (a.hits > b.hits)

/-- What `sort.Slice` does with that closure: it rearranges the slice so that no element
is `less` than one placed before it; elements that compare equal land in any order. -/
structure SliceSort where
  sort : List SectionStats → List SectionStats
  perm : ∀ l, (sort l).Perm l
  sorted : ∀ l, (sort l).Pairwise (fun a b => lessHits b a = false)

/-- The inner loop of the aggregation: `mergedStats[sectionName] += hitCount` for every
entry of the row's map. -/
def mergeRow (mo : MapOrder) (merged : SectionHits) (row : Row) : SectionHits :=
  (mo.order row.perSectionHits.entries).foldl
    (fun m e => m.insert e.1 ((m.lookup e.1).getD 0 + e.2)) merged

/-- Go `Timeseries.TopNSectionsSince`; `none` is the panic of `allSections[:n]` for a
negative `n`. -/
def Timeseries.TopNSectionsSince (ts : Timeseries) (mo : MapOrder) (ss : SliceSort)
    (now : Int) (n : Int) (d : Int) : Option (List SectionStats) :=
  let mergedStats := (ts.GetRowsSince now d).foldl (mergeRow mo) ∅
  let allSections := (mo.order mergedStats.entries).map (fun e => SectionStats.mk e.1 e.2)
  let sorted := ss.sort allSections
  if (sorted.length : Int) ≤ n then some sorted
  else if n < 0 then none
  else some (sorted.take n.toNat)

/-- The distinct sections that appear in the given rows. -/
def windowSections (rows : List Row) : List sectionName :=
  (rows.flatMap (fun r => r.perSectionHits.keys)).dedup

/-- The sum of one section's `perSectionHits` over the given rows (a row without the
section contributes nothing). -/
def windowHits (rows : List Row) (k : sectionName) : Int :=
  (rows.map (fun r => (r.perSectionHits.lookup k).getD 0)).sum

/-- One `SectionStats` per distinct section of the rows, with its summed hits. -/
def windowStats (rows : List Row) : List SectionStats :=
  (windowSections rows).map (fun k => SectionStats.mk k (windowHits rows k))

/-- A map order: entries are visited as stored. -/
def MapOrder.stored : MapOrder := ⟨id, fun l => List.Perm.refl l⟩

/-- Lexicographic comparison of two lists of character codes. -/
def codesLE : List Nat → List Nat → Bool
  | [], _ => true
  | _ :: _, [] => false
  | a :: as, b :: bs => decide (a < b) || (decide (a = b) && codesLE as bs)

/-- Comparison of two section names, character by character. -/
def nameLE (a b : sectionName) : Bool :=
  codesLE (a.toList.map Char.toNat) (b.toList.map Char.toNat)

/-- Another map order: entries are visited by increasing section name. -/
def MapOrder.ascendingNames : MapOrder :=
  ⟨List.insertionSort (fun a b => nameLE a.1 b.1 = true), fun l => List.perm_insertionSort _ l⟩

/-- Another map order: entries are visited by decreasing section name. -/
def MapOrder.descendingNames : MapOrder :=
  ⟨List.insertionSort (fun a b => nameLE b.1 a.1 = true), fun l => List.perm_insertionSort _ l⟩

/-- A `sort.Slice` behaviour: insertion sort by decreasing hits. -/
def SliceSort.insertion : SliceSort where
  sort := List.insertionSort (fun a b => b.hits ≤ a.hits)
  perm := fun l => List.perm_insertionSort _ l
  sorted := fun l => by
    haveI : IsTotal SectionStats (fun a b => b.hits ≤ a.hits) := ⟨fun a b => le_total b.hits a.hits⟩
    haveI : IsTrans SectionStats (fun a b => b.hits ≤ a.hits) := ⟨fun _ _ _ h1 h2 => le_trans h2 h1⟩
    have h := List.sorted_insertionSort (fun a b : SectionStats => b.hits ≤ a.hits) l
    refine List.Pairwise.imp ?_ h
    intro a b hab
    simpa [lessHits] using hab

/-! ## Alerter (`alerter.go`) -/

/-- Go `alertState`. -/
inductive alertState where
  | AlertLowState
  | AlertHighState
  deriving DecidableEq

/-- Go `Alerter`: the fields the state machine reads. The rate source `tsdb` is given to
the loop as the samples it returns, the writer `out` is the list of writes it receives. -/
structure Alerter where
  threshold : F64
  period : Int

/-- An argument of a formatted write. -/
inductive FmtArg where
  | float (x : F64)
  | duration (d : Int)
  deriving DecidableEq

/-- One write on `a.out`: the format string of the `fmt.Fprintf` or `fmt.Fprint` call and
its arguments. -/
structure Write where
  format : String
  args : List FmtArg
  deriving DecidableEq

/-- The enter-alert message. -/
def msgHighTraffic : String :=
  "\x1b[93mHigh traffic generated an alert - hits = %.1f req/s in the last %s\x1b[0m\n"

/-- The recovery message. -/
def msgRecovered : String := "\x1b[92mAlert recovered\x1b[0m\n"

/-- The body of the `ticker.C` case of `PrintAlertStateChange` for the sample `reqs`:
the new `currentState` and what is written. -/
def Alerter.tick (a : Alerter) (currentState : alertState) (reqs : F64) :
    alertState × List Write :=
  let state := if F64.ge reqs a.threshold then alertState.AlertHighState
    else alertState.AlertLowState
  if state ≠ currentState then
    if state = alertState.AlertHighState then
      (state, [Write.mk msgHighTraffic [FmtArg.float reqs, FmtArg.duration a.period]])
    else
      (state, [Write.mk msgRecovered []])
  else (currentState, [])

/-- The loop of `PrintAlertStateChange` from a given state, over the samples returned by
`GetAvgRate` on the successive ticks before the context is done. -/
def Alerter.runFrom (a : Alerter) : alertState → List F64 → alertState × List Write
  | st, [] => (st, [])
  | st, r :: rest =>
    let step := a.tick st r
    let tail := Alerter.runFrom a step.1 rest
    (tail.1, step.2 ++ tail.2)

/-- Go `Alerter.PrintAlertStateChange`: `currentState` starts as the zero value
`AlertLowState`. -/
def Alerter.PrintAlertStateChange (a : Alerter) (samples : List F64) :
    alertState × List Write :=
  a.runFrom alertState.AlertLowState samples

/-! ## Hit events (`http_hit.go`) -/

/-- Go `HTTPHit`; the field `section` is named `hitSection` here, and the Go field `time`
is the pair of `time` (its instant) and `loc` (its location). -/
structure HTTPHit where
  statusCode : Int
  method : String
  time : Int
  loc : Location
  bytesSent : Int
  hitSection : sectionName
  deriving DecidableEq

/-- Go `strings.Split(s, "/")` on the characters of `s`: the pieces between the
slashes, one more than there are slashes. -/
def splitSlash : List Char → List (List Char)
  | [] => [[]]
  | c :: cs =>
    if c = '/' then [] :: splitSlash cs
    else
      match splitSlash cs with
      | [] => [[c]]
      | piece :: pieces => (c :: piece) :: pieces

/-- The last statement of `NewHTTPHit`: the section of a request path. -/
def sectionOfPath (path : String) : sectionName :=
  let parts := splitSlash path.toList
  if parts.length ≤ 2 then "nosection"
  else "/" ++ String.mk (parts.getD 1 [])

/-- Go `NewHTTPHit`. The library parsers `time.Parse` (with the layout of the access
log; it gives the instant and the location of the parsed time) and `strconv.Atoi` are
parameters; a parse error leaves the zero value, `time.Time{}` for the time. -/
def NewHTTPHit (parseTime : String → Option (Int × Location)) (atoi : String → Option Int)
    (date method path statusCode bytesSent : String) : HTTPHit :=
  { method := method
    time := ((parseTime date).getD (0, Location.nilLoc)).1
    loc := ((parseTime date).getD (0, Location.nilLoc)).2
    statusCode := (atoi statusCode).getD 0
    bytesSent := (atoi bytesSent).getD 0
    hitSection := sectionOfPath path }

/-- The segments of a request path as the specification counts them: the pieces
delimited by `/` that follow the leading `/`. -/
def pathSegments (path : String) : List (List Char) :=
  match path.toList with
  | '/' :: rest => splitSlash rest
  | cs => splitSlash cs

/-- The section as the specification words it: `nosection` for fewer than two segments,
otherwise `/` followed by the first segment. -/
def specSection (path : String) : sectionName :=
  if (pathSegments path).length < 2 then "nosection"
  else "/" ++ String.mk ((pathSegments path).headD [])

/-! ## Aggregator (`main.go`)

The two times compared with `!=` in `aggregateHits` have both gone through `Truncate`
or are `time.Time{}`, so they carry no monotonic clock reading: they are unequal when
their instants differ or their locations differ. -/

/-- The result of a Go `int` addition: `x` brought back into the 64-bit signed range. -/
def wrapInt (x : Int) : Int :=
  (x + 9223372036854775808) % 18446744073709551616 - 9223372036854775808

/-- Go `Time.Truncate(d)`: rounds `t` down to a multiple of `d` since the zero time;
`t` itself when `d <= 0`. -/
def timeTruncate (t d : Int) : Int :=
  if d ≤ 0 then t else t - t % d

/-- Go `NewRow`, for the time of instant `time` and location `loc`. -/
def NewRow (time : Int) (loc : Location) : Row :=
  { time := time, loc := loc, totalHits := 0, totalBits := 0, perSectionHits := ∅ }

/-- The three statements that close the hit case: `row.totalHits++`,
`row.totalBits += hit.bytesSent`, `row.perSectionHits[hit.section]++`. The byte count
added is whatever `int` the log line gave, so that addition wraps; the two hit counters
grow by one per event and are not wrapped. -/
def Row.accumulate (row : Row) (hit : HTTPHit) : Row :=
  { row with
    totalHits := row.totalHits + 1
    totalBits := wrapInt (row.totalBits + hit.bytesSent)
    perSectionHits := row.perSectionHits.insert hit.hitSection
      ((row.perSectionHits.lookup hit.hitSection).getD 0 + 1) }

/-- The hit case of the `select` in `aggregateHits`, on the local variable `row`: the row
passed to `timeseries.insert`, if any, and the new value of `row`. -/
def hitCase (row : Row) (hit : HTTPHit) : Option Row × Row :=
  let truncatedTime := timeTruncate hit.time second
  let row1 := if row.time = 0 then { row with time := truncatedTime, loc := hit.loc } else row
  if (truncatedTime, hit.loc) ≠ (row1.time, row1.loc) then
    (some row1, (NewRow truncatedTime hit.loc).accumulate hit)
  else
    (none, row1.accumulate hit)

/-- The ticker case of the `select` in `aggregateHits`, with the clock reading `now`: the
row passed to `timeseries.insert`, if any, and the new value of `row`. `time.Now()`
carries the location `time.Local`. -/
def tickerCase (row : Row) (now : Int) : Option Row × Row :=
  if row.time = 0 then (none, row)
  else if (timeTruncate now second, Location.localLoc) ≠ (row.time, row.loc) then
    (some row, NewRow 0 Location.nilLoc)
  else (none, row)

/-- What the `select` of `aggregateHits` receives: a tick of the ticker, a hit read from
the channel, or the closure of the channel. `now` is the clock reading while the case
runs. -/
inductive Event where
  | tick (now : Int)
  | hit (now : Int) (h : HTTPHit)
  | closed
  deriving DecidableEq

/-- The loop of `aggregateHits` from a given `row` and store, over the events received.
It returns at the closure of the channel; `none` is a panic inside `insert`. The result
is the final `row` and store. -/
def aggregateLoop : Row → Timeseries → List Event → Option (Row × Timeseries)
  | row, ts, [] => some (row, ts)
  | row, ts, Event.closed :: _ => some (row, ts)
  | row, ts, Event.tick now :: rest =>
    match tickerCase row now with
    | (some flushed, row1) =>
      (ts.insert now flushed).bind (fun ts1 => aggregateLoop row1 ts1 rest)
    | (none, row1) => aggregateLoop row1 ts rest
  | row, ts, Event.hit now h :: rest =>
    match hitCase row h with
    | (some flushed, row1) =>
      (ts.insert now flushed).bind (fun ts1 => aggregateLoop row1 ts1 rest)
    | (none, row1) => aggregateLoop row1 ts rest

/-- Go `aggregateHits`: the loop started with `row := NewRow(time.Time{})`. -/
def aggregateHits (ts : Timeseries) (events : List Event) : Option (Row × Timeseries) :=
  aggregateLoop (NewRow 0 Location.nilLoc) ts events

/-- The rows that the loop passes to `timeseries.insert`, in order and each with the
clock reading of its call, and the final `row`; what `insert` does with them plays no
part. -/
def handedRows : Row → List Event → List (Int × Row) × Row
  | row, [] => ([], row)
  | row, Event.closed :: _ => ([], row)
  | row, Event.tick now :: rest =>
    match tickerCase row now with
    | (some flushed, row1) => ((now, flushed) :: (handedRows row1 rest).1, (handedRows row1 rest).2)
    | (none, row1) => handedRows row1 rest
  | row, Event.hit now h :: rest =>
    match hitCase row h with
    | (some flushed, row1) => ((now, flushed) :: (handedRows row1 rest).1, (handedRows row1 rest).2)
    | (none, row1) => handedRows row1 rest

/-- The hit events that the loop processes: those received before the closure. -/
def processedHits : List Event → List HTTPHit
  | [] => []
  | Event.closed :: _ => []
  | Event.tick _ :: rest => processedHits rest
  | Event.hit _ h :: rest => h :: processedHits rest

/-- The second of each tick and hit event: the wall clock truncated to the second for a
tick, the hit time truncated to the second for a hit. -/
def eventSeconds : List Event → List Int
  | [] => []
  | Event.closed :: rest => eventSeconds rest
  | Event.tick now :: rest => timeTruncate now second :: eventSeconds rest
  | Event.hit _ h :: rest => timeTruncate h.time second :: eventSeconds rest

/-! ## Concrete inputs used in the examples -/

/-- A row of one hit and ten bytes at the given second, without section detail. -/
def plainRow (sec : Int) : Row := Row.mk (sec * second) Location.localLoc 1 10 ∅

/-- An empty store that keeps two seconds of history. -/
def shortStore : Timeseries := Timeseries.mk (2 * second) []

/-- Three inserts, each made one second after the second it reports. -/
def threeInserts : List (Int × Row) :=
  [(1 * second, plainRow 0), (2 * second, plainRow 1), (3 * second, plainRow 2)]

/-- A store holding the single row of second 0. -/
def oneRowStore : Timeseries := Timeseries.mk (120 * second) [plainRow 0]

/-- The bucket of second 0 in the end-to-end scenario: 5 hits, 500 bytes. -/
def bucket0 : Row := Row.mk 0 Location.localLoc 5 500 ∅

/-- The bucket of second 1 in the end-to-end scenario: 15 hits, 1500 bytes. -/
def bucket1 : Row := Row.mk (1 * second) Location.localLoc 15 1500 ∅

/-- The store of the end-to-end scenario once both buckets are in. -/
def scenarioStore : Timeseries := Timeseries.mk (120 * second) [bucket0, bucket1]

/-- The store returned by `NewTimeseries(120 * time.Second)`. -/
def freshStore : Timeseries := Timeseries.mk (120 * second) []

/-- The alerter of the tests: threshold 42, evaluation window of two seconds. -/
def testAlerter : Alerter := Alerter.mk (F64.num 42) (2 * second)

/-- The write made on entering the alert state with the sample `reqs`. -/
def Alerter.enterAlert (a : Alerter) (reqs : F64) : Write :=
  Write.mk msgHighTraffic [FmtArg.float reqs, FmtArg.duration a.period]

/-- The write made on leaving the alert state. -/
def alertRecovered : Write := Write.mk msgRecovered []

/-- Another `sort.Slice` behaviour: the same insertion sort run on the reversed slice, so
that elements of equal hits come out in the opposite order. -/
def SliceSort.insertionReversed : SliceSort where
  sort := fun l => SliceSort.insertion.sort l.reverse
  perm := fun l => (SliceSort.insertion.perm l.reverse).trans (List.reverse_perm l)
  sorted := fun l => SliceSort.insertion.sorted l.reverse

/-- The map holding the given section counts. -/
def sectionHitsOf (l : List (sectionName × Int)) : SectionHits :=
  l.foldl (fun m e => m.insert e.1 e.2) ∅

/-- A row of second 0 with hits on sections `/A` and `/B`. -/
def tieRow0 : Row := Row.mk 0 Location.localLoc 7 70 (sectionHitsOf [("/A", 2), ("/B", 5)])

/-- A row of second 1 with hits on sections `/A` and `/C`. -/
def tieRow1 : Row :=
  Row.mk (1 * second) Location.localLoc 5 50 (sectionHitsOf [("/A", 3), ("/C", 2)])

/-- A store whose merged counts are `/A`: 5, `/B`: 5, `/C`: 2. -/
def tieStore : Timeseries := Timeseries.mk (120 * second) [tieRow0, tieRow1]

/-- A hit of ten bytes on section `/a` with the given second as its time, logged with
the offset of the local zone. -/
def hitAt (sec : Int) : HTTPHit :=
  HTTPHit.mk 200 "GET" (sec * second) Location.localLoc 10 "/a"

/-- A hit whose date could not be parsed: its time is `time.Time{}`. -/
def undatedHit : HTTPHit := HTTPHit.mk 200 "GET" 0 Location.nilLoc 10 "/a"

/-- A hit of ten bytes on section `/a` with the given second as its time, logged with an
offset that is not the one of the local zone. -/
def foreignHitAt (sec : Int) : HTTPHit :=
  HTTPHit.mk 200 "GET" (sec * second) (Location.fixedZone 1) 10 "/a"

/-- A hit of second 5 logged with a foreign offset, a tick half a second later, a second
such hit of second 5, and a tick in second 6. -/
def foreignEvents : List Event :=
  [Event.hit (5 * second) (foreignHitAt 5), Event.tick (5 * second + 500000000),
    Event.hit (5 * second + 600000000) (foreignHitAt 5), Event.tick (6 * second + 500000000)]

/-- A hit of second 5 whose logged byte count is the largest Go `int`. -/
def hugeHit : HTTPHit :=
  HTTPHit.mk 200 "GET" (5 * second) Location.localLoc 9223372036854775807 "/a"

/-- Hits of seconds 5, 3 and 5, all received at second 10. -/
def outOfOrderEvents : List Event :=
  [Event.hit (10 * second) (hitAt 5), Event.hit (10 * second) (hitAt 3),
    Event.hit (10 * second) (hitAt 5)]

/-- A hit of second 5, a tick at second 7, a second hit of second 5, a tick at second 8. -/
def lateHitEvents : List Event :=
  [Event.hit (5 * second) (hitAt 5), Event.tick (7 * second),
    Event.hit (7 * second) (hitAt 5), Event.tick (8 * second)]

/-- Hits of seconds 5, 5 and 6 with ticks in between, each event at its own second. -/
def steadyEvents : List Event :=
  [Event.hit (5 * second) (hitAt 5), Event.tick (5 * second), Event.hit (5 * second) (hitAt 5),
    Event.hit (6 * second) (hitAt 6), Event.tick (7 * second), Event.tick (8 * second)]

/-- The side of the threshold a state stands for: `true` for `AlertHighState`. -/
def alertState.isHigh : alertState → Bool
  | alertState.AlertHighState => true
  | alertState.AlertLowState => false

/-- The format strings of `n` alternating messages, the first being `Alert recovered`
when `high` is `true` and the enter-alert message otherwise. -/
def alternation : Bool → Nat → List String
  | _, 0 => []
  | high, n + 1 => (if high then msgRecovered else msgHighTraffic) :: alternation (!high) n

/-- The number of samples whose side of the threshold (`>=` or not) differs from the side
of the sample before, `side` being the side before the first sample. -/
def sideChanges (threshold : F64) : Bool → List F64 → Nat
  | _, [] => 0
  | side, r :: rest =>
    (if F64.ge r threshold = side then 0 else 1)
      + sideChanges threshold (F64.ge r threshold) rest

/-- A row whose `totalHits` is the sum of its per-section counts, each count being at
least 1. -/
def Row.Consistent (r : Row) : Prop :=
  r.totalHits = (r.perSectionHits.entries.map (fun e => e.2)).sum ∧
    ∀ e ∈ r.perSectionHits.entries, 1 ≤ e.2

/-- Two hits of second 5 whose logged byte counts are the largest Go `int`. -/
def hugeEvents : List Event :=
  [Event.hit (5 * second) hugeHit, Event.hit (5 * second) hugeHit]

/-! ## Lemmas on the primitives -/

theorem timeSub_anti_right {u v : Int} (t : Int) (h : u ≤ v) : timeSub t v ≤ timeSub t u := by
  unfold timeSub maxDuration minDuration
  split_ifs <;> omega

theorem sub_le_of_timeSub_le {t u r : Int} (hr : r < maxDuration) (h : timeSub t u ≤ r) :
    t - u ≤ r := by
  unfold timeSub at h
  unfold maxDuration minDuration at *
  split_ifs at h <;> omega

/-! ## Lemmas on `insert` -/

theorem evictExpired_suffix {now ret : Int} :
    ∀ {l out : List Row}, evictExpired now ret l = some out → ∃ pre, l = pre ++ out := by
  intro l
  induction l with
  | nil => intro out h; simp [evictExpired] at h
  | cons r rest ih =>
    intro out h
    unfold evictExpired at h
    split_ifs at h with hc
    · obtain ⟨pre, hpre⟩ := ih h
      exact ⟨r :: pre, by simp [hpre]⟩
    · exact ⟨[], by simpa using h⟩

theorem evictExpired_head {now ret : Int} :
    ∀ {l out : List Row}, evictExpired now ret l = some out →
      ∃ r rest, out = r :: rest ∧ since now r.time ≤ ret := by
  intro l
  induction l with
  | nil => intro out h; simp [evictExpired] at h
  | cons r rest ih =>
    intro out h
    unfold evictExpired at h
    split_ifs at h with hc
    · exact ih h
    · exact ⟨r, rest, by simpa using h.symm, not_lt.mp hc⟩

theorem evictExpired_retained {now ret : Int} {l out : List Row}
    (hs : StrictlyIncreasing l) (h : evictExpired now ret l = some out) :
    StrictlyIncreasing out ∧ ∀ r ∈ out, since now r.time ≤ ret := by
  obtain ⟨pre, hpre⟩ := evictExpired_suffix h
  obtain ⟨r0, rest, hout, h0⟩ := evictExpired_head h
  have hso : StrictlyIncreasing out := by
    unfold StrictlyIncreasing at hs ⊢
    rw [hpre] at hs
    exact (List.pairwise_append.mp hs).2.1
  refine ⟨hso, ?_⟩
  intro r hr
  rw [hout] at hr hso
  rcases List.mem_cons.mp hr with rfl | hmem
  · exact h0
  · have hlt : r0.time < r.time := (List.pairwise_cons.mp hso).1 r hmem
    exact le_trans (timeSub_anti_right now (le_of_lt hlt)) h0

theorem insert_suffix {ts ts1 : Timeseries} {now : Int} {row : Row}
    (h : ts.insert now row = some ts1) :
    ts1.retention = ts.retention ∧ ∃ pre, ts.s ++ [row] = pre ++ ts1.s := by
  unfold Timeseries.insert at h
  cases he : evictExpired now ts.retention (ts.s ++ [row]) with
  | none => simp [he] at h
  | some out =>
    simp only [he, Option.map_some', Option.some.injEq] at h
    subst h
    exact ⟨rfl, evictExpired_suffix he⟩

theorem insertAll_append (l1 l2 : List (Int × Row)) :
    ∀ ts : Timeseries,
      ts.insertAll (l1 ++ l2) = (ts.insertAll l1).bind (fun t => t.insertAll l2) := by
  induction l1 with
  | nil => intro ts; simp [Timeseries.insertAll]
  | cons op rest ih =>
    intro ts
    obtain ⟨now, row⟩ := op
    simp only [List.cons_append, Timeseries.insertAll]
    cases ts.insert now row with
    | none => simp
    | some t => simp [ih t]

theorem insertAll_suffix (ops : List (Int × Row)) :
    ∀ {ts ts1 : Timeseries}, ts.insertAll ops = some ts1 →
      ts1.retention = ts.retention ∧ ∃ pre, ts.s ++ ops.map Prod.snd = pre ++ ts1.s := by
  induction ops with
  | nil =>
    intro ts ts1 h
    simp only [Timeseries.insertAll, Option.some.injEq] at h
    subst h
    exact ⟨rfl, [], by simp⟩
  | cons op rest ih =>
    intro ts ts1 h
    obtain ⟨now, row⟩ := op
    simp only [Timeseries.insertAll] at h
    cases hi : ts.insert now row with
    | none => simp [hi] at h
    | some t =>
      simp only [hi, Option.some_bind] at h
      obtain ⟨hr1, pre1, hp1⟩ := insert_suffix hi
      obtain ⟨hr2, pre2, hp2⟩ := ih h
      refine ⟨hr2.trans hr1, pre1 ++ pre2, ?_⟩
      calc ts.s ++ List.map Prod.snd ((now, row) :: rest)
          = (ts.s ++ [row]) ++ List.map Prod.snd rest := by simp
        _ = pre1 ++ (t.s ++ List.map Prod.snd rest) := by rw [hp1, List.append_assoc]
        _ = pre1 ++ pre2 ++ ts1.s := by rw [hp2, List.append_assoc]

/-- C1 (retention invariant). Take any store and any sequence of inserts whose rows,
together with the rows already stored, are strictly increasing by timestamp, each insert
being performed at its own instant. Whenever the run has completed an insert performed at
instant `now`, every row left in the store has age `time.Since(row.time) <= retention`
at `now`; for a retention below the largest duration this is `now - row.time <= retention`
in exact arithmetic. -/
theorem retention_invariant (ts ts1 : Timeseries) (ops : List (Int × Row)) (now : Int)
    (row : Row)
    (hinc : StrictlyIncreasing (ts.s ++ ops.map Prod.snd ++ [row]))
    (hrun : ts.insertAll (ops ++ [(now, row)]) = some ts1) :
    ∀ r ∈ ts1.s, since now r.time ≤ ts.retention ∧
      (ts.retention < maxDuration → now - r.time ≤ ts.retention) := by
  rw [insertAll_append] at hrun
  cases hmid : ts.insertAll ops with
  | none => simp [hmid] at hrun
  | some t =>
    simp only [hmid, Option.some_bind, Timeseries.insertAll] at hrun
    cases hlast : t.insert now row with
    | none => simp [hlast] at hrun
    | some t2 =>
      simp only [hlast, Option.some_bind, Option.some.injEq] at hrun
      subst hrun
      obtain ⟨hret, pre, hpre⟩ := insertAll_suffix ops hmid
      have hinc2 : StrictlyIncreasing (t.s ++ [row]) := by
        unfold StrictlyIncreasing at hinc ⊢
        rw [hpre, List.append_assoc] at hinc
        exact (List.pairwise_append.mp hinc).2.1
      unfold Timeseries.insert at hlast
      cases he : evictExpired now t.retention (t.s ++ [row]) with
      | none => simp [he] at hlast
      | some out =>
        simp only [he, Option.map_some', Option.some.injEq] at hlast
        subst hlast
        intro r hr
        have hage := (evictExpired_retained hinc2 he).2 r hr
        rw [hret] at hage
        exact ⟨hage, fun hlt => sub_le_of_timeSub_le hlt hage⟩

/-- A run of four inserts spanning longer than the two-second retention: the rows of
seconds 0 and 1 are gone after the fourth insert and the remaining ones are young enough. -/
theorem retention_invariant_witness :
    StrictlyIncreasing (shortStore.s ++ threeInserts.map Prod.snd ++ [plainRow 3]) ∧
      shortStore.insertAll (threeInserts ++ [(4 * second, plainRow 3)])
        = some (Timeseries.mk (2 * second) [plainRow 2, plainRow 3]) ∧
      ∀ r ∈ (Timeseries.mk (2 * second) [plainRow 2, plainRow 3]).s,
        since (4 * second) r.time ≤ shortStore.retention ∧
          (shortStore.retention < maxDuration → 4 * second - r.time ≤ shortStore.retention) :=
  ⟨by decide, by decide,
    retention_invariant shortStore (Timeseries.mk (2 * second) [plainRow 2, plainRow 3])
      threeInserts (4 * second) (plainRow 3) (by decide) (by decide)⟩

/-! ## `GetRowsSince` -/

theorem durTruncate_second (d : Int) :
    durTruncate d second =
      if 0 ≤ d then d - d % 1000000000 else d + (-d) % 1000000000 := by
  unfold durTruncate second
  simp only [show ¬ ((1000000000 : Int) ≤ 0) by decide, if_false]
  split_ifs with h
  · rw [Int.tmod_eq_emod h (by decide)]
  · have hneg : (0 : Int) ≤ -d := by omega
    have h1 : Int.tmod (-d) 1000000000 = (-d) % 1000000000 :=
      Int.tmod_eq_emod hneg (by decide)
    have h2 : Int.tmod (-d) 1000000000 = -(Int.tmod d 1000000000) := by
      simp [Int.tmod_def, Int.neg_tdiv]
      ring
    omega

theorem durTruncate_mono {a b : Int} (h : a ≤ b) :
    durTruncate a second ≤ durTruncate b second := by
  rw [durTruncate_second, durTruncate_second]
  split_ifs <;> omega

theorem inWindow_of_later {now d : Int} {a b : Row} (hab : b.time < a.time)
    (hb : inWindow now d b = true) : inWindow now d a = true := by
  unfold inWindow at hb ⊢
  rw [decide_eq_true_eq] at hb ⊢
  exact le_trans (durTruncate_mono (timeSub_anti_right now (le_of_lt hab))) hb

theorem takeWhile_eq_filter_of_closed {α : Type} (p : α → Bool) :
    ∀ l : List α, l.Pairwise (fun a b => p b = true → p a = true) →
      l.takeWhile p = l.filter p := by
  intro l
  induction l with
  | nil => intro _; rfl
  | cons x rest ih =>
    intro hp
    obtain ⟨hx, hrest⟩ := List.pairwise_cons.mp hp
    cases hpx : p x with
    | true => simp [List.takeWhile, List.filter, hpx, ih hrest]
    | false =>
      have hnone : ∀ y ∈ rest, ¬ (p y = true) := by
        intro y hy hpy
        have := hx y hy hpy
        simp [hpx] at this
      simp [List.takeWhile, List.filter, hpx, List.filter_eq_nil_iff.mpr hnone]

theorem getRowsSince_eq_filter {ts : Timeseries} (now d : Int)
    (hinc : StrictlyIncreasing ts.s) :
    ts.GetRowsSince now d = (ts.s.filter (inWindow now d)).reverse := by
  unfold Timeseries.GetRowsSince
  rw [takeWhile_eq_filter_of_closed, List.filter_reverse]
  rw [List.pairwise_reverse]
  exact List.Pairwise.imp (fun hab hb => inWindow_of_later hab hb) hinc

/-- C2, as the code has it. For every store whose rows are strictly increasing by
timestamp, every instant `now` and every duration `d`, `GetRowsSince(d)` is exactly the
stored rows whose age `time.Since(row.time)`, truncated to whole seconds
(`Duration.Truncate`), is `<= d`, in reverse store order: most recent first, no row twice,
no qualifying row left out. When `d` is a non-negative whole number of seconds, a row
whose age is `d` plus a fraction of a second is included. -/
theorem getRowsSince_exact (ts : Timeseries) (now d : Int)
    (hinc : StrictlyIncreasing ts.s) :
    ts.GetRowsSince now d =
        (ts.s.filter (fun r => decide (durTruncate (since now r.time) second ≤ d))).reverse ∧
      (ts.GetRowsSince now d).Pairwise (fun a b => b.time < a.time) ∧
      (ts.GetRowsSince now d).Nodup ∧
      (∀ r, r ∈ ts.GetRowsSince now d ↔
        r ∈ ts.s ∧ durTruncate (since now r.time) second ≤ d) ∧
      (0 ≤ d → d % second = 0 → ∀ r ∈ ts.s, ∀ f : Int, 0 ≤ f → f < second →
        since now r.time = d + f → r ∈ ts.GetRowsSince now d) := by
  have heq := getRowsSince_eq_filter now d hinc
  have hdesc : (ts.GetRowsSince now d).Pairwise (fun a b => b.time < a.time) := by
    rw [heq, List.pairwise_reverse]
    exact List.Pairwise.sublist (List.filter_sublist ts.s) hinc
  have hmem : ∀ r, r ∈ ts.GetRowsSince now d ↔
      r ∈ ts.s ∧ durTruncate (since now r.time) second ≤ d := by
    intro r
    rw [heq, List.mem_reverse, List.mem_filter]
    simp [inWindow]
  refine ⟨heq, hdesc, ?_, hmem, ?_⟩
  · refine List.Pairwise.imp ?_ hdesc
    intro a b hab hne
    rw [hne] at hab
    exact lt_irrefl _ hab
  · intro hd hmod r hr f hf0 hf1 hage
    refine (hmem r).mpr ⟨hr, ?_⟩
    rw [hage, durTruncate_second]
    unfold second at hmod hf1
    split_ifs <;> omega

/-- With a window of three seconds, the row of second 0 is returned 3.6 seconds later. -/
theorem getRowsSince_exact_witness :
    StrictlyIncreasing oneRowStore.s ∧
      oneRowStore.GetRowsSince 3600000000 (3 * second) = [plainRow 0] ∧
      (oneRowStore.GetRowsSince 3600000000 (3 * second)).Nodup :=
  ⟨by decide, by decide,
    (getRowsSince_exact oneRowStore 3600000000 (3 * second) (by decide)).2.2.1⟩

/-- C2 fails for a window that is not a whole number of seconds: with `d = 1.5s`, the row
of second 0 has, at `now = 2.1s`, the age `d + 0.6s`, and `GetRowsSince(d)` leaves it out
(its age truncates to `2s`, which is more than `d`). -/
theorem getRowsSince_fraction_counterexample :
    StrictlyIncreasing oneRowStore.s ∧
      plainRow 0 ∈ oneRowStore.s ∧
      since 2100000000 (plainRow 0).time = 1500000000 + 600000000 ∧
      (0 : Int) ≤ 600000000 ∧ (600000000 : Int) < second ∧
      plainRow 0 ∉ oneRowStore.GetRowsSince 2100000000 1500000000 := by
  decide

/-! ## `GetAvgRate` -/

theorem foldl_rates (rows : List Row) :
    ∀ acc : Int × Int,
      rows.foldl (fun acc row => (acc.1 + row.totalHits, acc.2 + row.totalBits)) acc =
        (acc.1 + (rows.map Row.totalHits).sum, acc.2 + (rows.map Row.totalBits).sum) := by
  induction rows with
  | nil => intro acc; simp
  | cons r rest ih =>
    intro acc
    simp only [List.foldl_cons, ih, List.map_cons, List.sum_cons]
    ext <;> simp <;> ring

theorem sumRates_eq (rows : List Row) :
    sumRates rows = ((rows.map Row.totalHits).sum, (rows.map Row.totalBits).sum) := by
  unfold sumRates
  rw [foldl_rates]
  simp

theorem scenario_rows (t : Int) (h0 : 0 ≤ t) (h3 : t < 3 * second) :
    scenarioStore.GetRowsSince t (2 * second) = [bucket1, bucket0] := by
  have hb1 : inWindow t (2 * second) bucket1 = true := by
    unfold inWindow
    rw [decide_eq_true_eq, durTruncate_second]
    unfold since timeSub maxDuration minDuration bucket1 second at *
    simp only []
    split_ifs <;> omega
  have hb0 : inWindow t (2 * second) bucket0 = true := by
    unfold inWindow
    rw [decide_eq_true_eq, durTruncate_second]
    unfold since timeSub maxDuration minDuration bucket0 second at *
    simp only []
    split_ifs <;> omega
  simp [Timeseries.GetRowsSince, scenarioStore, List.takeWhile, hb1, hb0]

/-- C3. For every store, instant and window `d`, `GetAvgRate(d)` is the sum of `totalHits`
over `GetRowsSince(d)` divided by `s`, and the sum of `totalBits` over the same rows
divided by `s`, where `s = d / time.Second` is the window in whole seconds: the divisor
does not depend on the rows. In the end-to-end scenario (a store of 120s retention,
buckets of 5 hits and 500 bytes at second 0 and of 15 hits and 1500 bytes at second 1)
`GetAvgRate(2s)`, asked at any instant before second 3, is `(10, 1000)`; over a 10s
window, longer than the history, it is the same sums over 10: `(2, 200)`. -/
theorem getAvgRate_formula (ts : Timeseries) (now d : Int) :
    ts.GetAvgRate now d =
        (floatDiv ((ts.GetRowsSince now d).map Row.totalHits).sum (Int.tdiv d second),
          floatDiv ((ts.GetRowsSince now d).map Row.totalBits).sum (Int.tdiv d second)) ∧
      NewTimeseries (120 * second) = some (.ok freshStore) ∧
      freshStore.insertAll [(1 * second, bucket0), (2 * second, bucket1)]
        = some scenarioStore ∧
      (∀ t : Int, 0 ≤ t → t < 3 * second →
        scenarioStore.GetAvgRate t (2 * second) = (F64.num 10, F64.num 1000)) ∧
      scenarioStore.GetAvgRate (2 * second) (10 * second) = (F64.num 2, F64.num 200) := by
  have hrows10 : scenarioStore.GetRowsSince (2 * second) (10 * second) = [bucket1, bucket0] := by
    decide
  have hs2 : Int.tdiv (2 * second) second = 2 := by decide
  have hs10 : Int.tdiv (10 * second) second = 10 := by decide
  refine ⟨?_, rfl, by decide, ?_, ?_⟩
  · simp only [Timeseries.GetAvgRate, sumRates_eq]
  · intro t h0 h3
    simp only [Timeseries.GetAvgRate, sumRates_eq, scenario_rows t h0 h3, hs2]
    simp [floatDiv, bucket0, bucket1]
    norm_num
  · simp only [Timeseries.GetAvgRate, sumRates_eq, hrows10, hs10]
    simp [floatDiv, bucket0, bucket1]
    norm_num

theorem newTimeseries_ok {retention : Int} {ts : Timeseries}
    (h : NewTimeseries retention = some (.ok ts)) :
    ts = Timeseries.mk retention [] := by
  unfold NewTimeseries at h
  split_ifs at h
  · simp at h
  · simp only [Option.some.injEq, Except.ok.injEq] at h
    exact h.symm

/-- C4, as the code has it. A freshly constructed store answers `GetAvgRate` as exactly
`(0, 0)` for every window of at least one second (in either direction); for a window
shorter than one second, the zero window included, the divisor is `0` and the answer is
`(NaN, NaN)`. The query returns a pair for every input: it has no failing path. -/
theorem fresh_getAvgRate (retention : Int) (ts : Timeseries) (now d : Int)
    (hnew : NewTimeseries retention = some (.ok ts)) :
    (second ≤ d ∨ d ≤ -second → ts.GetAvgRate now d = (F64.num 0, F64.num 0)) ∧
      (-second < d ∧ d < second → ts.GetAvgRate now d = (F64.nan, F64.nan)) := by
  rw [newTimeseries_ok hnew]
  have hrows : (Timeseries.mk retention []).GetRowsSince now d = [] := rfl
  have hsecs : Int.tdiv d second = 0 ↔ (-second < d ∧ d < second) := by
    unfold second
    constructor
    · intro h
      have := Int.tmod_add_tdiv d 1000000000
      rw [h] at this
      have hlt := Int.tmod_lt_of_pos d (show (0 : Int) < 1000000000 by decide)
      have hgt : -1000000000 < Int.tmod d 1000000000 := by
        rcases le_or_lt 0 d with hd | hd
        · have := Int.tmod_nonneg 1000000000 hd
          omega
        · have h1 : Int.tmod (-d) 1000000000 = -(Int.tmod d 1000000000) := by
            simp [Int.tmod_def, Int.neg_tdiv]
            ring
          have h2 := Int.tmod_lt_of_pos (-d) (show (0 : Int) < 1000000000 by decide)
          omega
      omega
    · rintro ⟨h1, h2⟩
      rcases le_or_lt 0 d with hd | hd
      · rw [Int.tdiv_eq_ediv hd (by decide)]
        omega
      · have h3 : Int.tdiv (-d) 1000000000 = 0 := by
          rw [Int.tdiv_eq_ediv (by omega) (by decide)]
          omega
        rw [Int.neg_tdiv] at h3
        omega
  constructor
  · intro hd
    have hne : Int.tdiv d second ≠ 0 := by
      intro h0
      have := hsecs.mp h0
      omega
    simp [Timeseries.GetAvgRate, hrows, sumRates, floatDiv, hne]
  · intro hd
    simp [Timeseries.GetAvgRate, hrows, sumRates, floatDiv, hsecs.mpr hd]

/-- The store of 120s retention, asked for the rate over two seconds. -/
theorem fresh_getAvgRate_witness :
    NewTimeseries (120 * second) = some (.ok freshStore) ∧
      freshStore.GetAvgRate (5 * second) (2 * second) = (F64.num 0, F64.num 0) :=
  ⟨rfl, (fresh_getAvgRate (120 * second) freshStore (5 * second) (2 * second) rfl).1
    (Or.inl (by decide))⟩

/-- C4 fails for the zero window and for a sub-second window: the fresh store of 120s
retention answers `(NaN, NaN)`, not `(0, 0)`. -/
theorem fresh_getAvgRate_counterexample :
    NewTimeseries (120 * second) = some (.ok freshStore) ∧
      freshStore.GetAvgRate (5 * second) 0 = (F64.nan, F64.nan) ∧
      freshStore.GetAvgRate (5 * second) 500000000 = (F64.nan, F64.nan) ∧
      freshStore.GetAvgRate (5 * second) 0 ≠ (F64.num 0, F64.num 0) :=
  ⟨rfl, by decide, by decide, by decide⟩

/-! ## Alerter -/

theorem F64.ge_self_num (q : ℚ) : F64.ge (F64.num q) (F64.num q) = true := by
  simp [F64.ge]

theorem F64.not_ge_of_lt {x t : F64} (h : F64.lt x t = true) : F64.ge x t = false := by
  cases x <;> cases t <;> simp_all [F64.lt, F64.ge]

theorem tick_ge {a : Alerter} {r : F64} (cur : alertState)
    (h : F64.ge r a.threshold = true) :
    a.tick cur r = (alertState.AlertHighState,
      if cur = alertState.AlertHighState then [] else [a.enterAlert r]) := by
  cases cur <;> simp [Alerter.tick, Alerter.enterAlert, h]

theorem tick_not_ge {a : Alerter} {r : F64} (cur : alertState)
    (h : F64.ge r a.threshold = false) :
    a.tick cur r = (alertState.AlertLowState,
      if cur = alertState.AlertLowState then [] else [alertRecovered]) := by
  cases cur <;> simp [Alerter.tick, alertRecovered, h]

/-- C8 (alert transition function). On a tick with sample `r`, threshold `T` and current
state `cur`: the new state is `AlertHighState` when `r >= T` and `AlertLowState` otherwise,
whatever `cur` is; something is written exactly when the new state differs from `cur`,
and then it is the single enter-alert message (carrying `r` and the period) when the new
state is `AlertHighState` and the single message `Alert recovered` when it is
`AlertLowState`; a sample equal to the threshold gives `AlertHighState`. -/
theorem tick_transition (a : Alerter) (cur other : alertState) (r : F64) (q : ℚ)
    (period : Int) :
    (a.tick cur r).1 =
        (if F64.ge r a.threshold then alertState.AlertHighState
          else alertState.AlertLowState) ∧
      (a.tick cur r).1 = (a.tick other r).1 ∧
      ((a.tick cur r).2 ≠ [] ↔ (a.tick cur r).1 ≠ cur) ∧
      (a.tick cur r).2 =
        (if (a.tick cur r).1 = cur then []
          else if (a.tick cur r).1 = alertState.AlertHighState then
            [Write.mk msgHighTraffic [FmtArg.float r, FmtArg.duration a.period]]
          else [Write.mk msgRecovered []]) ∧
      ((Alerter.mk (F64.num q) period).tick cur (F64.num q)).1
        = alertState.AlertHighState := by
  refine ⟨?_, ?_, ?_, ?_, ?_⟩
  · cases h : F64.ge r a.threshold
    · rw [tick_not_ge cur h]; simp
    · rw [tick_ge cur h]; simp
  · cases h : F64.ge r a.threshold
    · rw [tick_not_ge cur h, tick_not_ge other h]
    · rw [tick_ge cur h, tick_ge other h]
  · cases h : F64.ge r a.threshold
    · rw [tick_not_ge cur h]; cases cur <;> simp
    · rw [tick_ge cur h]; cases cur <;> simp
  · cases h : F64.ge r a.threshold
    · rw [tick_not_ge cur h]; cases cur <;> simp [alertRecovered]
    · rw [tick_ge cur h]; cases cur <;> simp [Alerter.enterAlert]
  · rw [tick_ge cur (F64.ge_self_num q)]

theorem runFrom_append (a : Alerter) (xs ys : List F64) :
    ∀ st : alertState,
      a.runFrom st (xs ++ ys) =
        ((a.runFrom (a.runFrom st xs).1 ys).1,
          (a.runFrom st xs).2 ++ (a.runFrom (a.runFrom st xs).1 ys).2) := by
  induction xs with
  | nil => intro st; simp [Alerter.runFrom]
  | cons x rest ih =>
    intro st
    show a.runFrom st (x :: (rest ++ ys)) = _
    simp only [Alerter.runFrom, ih, List.append_assoc]

theorem runFrom_high_of_all_ge (a : Alerter) :
    ∀ xs : List F64, (∀ x ∈ xs, F64.ge x a.threshold = true) →
      a.runFrom alertState.AlertHighState xs = (alertState.AlertHighState, []) := by
  intro xs
  induction xs with
  | nil => intro _; rfl
  | cons x rest ih =>
    intro h
    have hx := h x (List.mem_cons_self x rest)
    have hrest := ih (fun y hy => h y (List.mem_cons_of_mem x hy))
    simp [Alerter.runFrom, tick_ge alertState.AlertHighState hx, hrest]

theorem runFrom_low_of_none_ge (a : Alerter) :
    ∀ xs : List F64, (∀ x ∈ xs, F64.ge x a.threshold = false) →
      a.runFrom alertState.AlertLowState xs = (alertState.AlertLowState, []) := by
  intro xs
  induction xs with
  | nil => intro _; rfl
  | cons x rest ih =>
    intro h
    have hx := h x (List.mem_cons_self x rest)
    have hrest := ih (fun y hy => h y (List.mem_cons_of_mem x hy))
    simp [Alerter.runFrom, tick_not_ge alertState.AlertLowState hx, hrest]

theorem run_all_ge (a : Alerter) (x : F64) (xs : List F64)
    (h : ∀ y ∈ x :: xs, F64.ge y a.threshold = true) :
    a.PrintAlertStateChange (x :: xs) = (alertState.AlertHighState, [a.enterAlert x]) := by
  have hx := h x (List.mem_cons_self x xs)
  have hrest := runFrom_high_of_all_ge a xs (fun y hy => h y (List.mem_cons_of_mem x hy))
  simp [Alerter.PrintAlertStateChange, Alerter.runFrom, tick_ge alertState.AlertLowState hx,
    hrest]

/-- C9. For every threshold and every run of samples made of one or more samples `>= T`
followed by one or more samples `< T`, the alerter started in `AlertLowState` writes
exactly two messages: the enter-alert message carrying the first sample (and the period),
then `Alert recovered`; it ends in `AlertLowState`. -/
theorem alert_then_recover (a : Alerter) (x y : F64) (xs ys : List F64)
    (hhigh : ∀ z ∈ x :: xs, F64.ge z a.threshold = true)
    (hlow : ∀ z ∈ y :: ys, F64.lt z a.threshold = true) :
    a.PrintAlertStateChange ((x :: xs) ++ (y :: ys)) =
      (alertState.AlertLowState,
        [Write.mk msgHighTraffic [FmtArg.float x, FmtArg.duration a.period],
          Write.mk msgRecovered []]) := by
  have h1 := run_all_ge a x xs hhigh
  have hy := F64.not_ge_of_lt (hlow y (List.mem_cons_self y ys))
  have h2 := runFrom_low_of_none_ge a ys
    (fun z hz => F64.not_ge_of_lt (hlow z (List.mem_cons_of_mem y hz)))
  unfold Alerter.PrintAlertStateChange at h1 ⊢
  rw [runFrom_append, h1]
  simp [Alerter.runFrom, tick_not_ge alertState.AlertHighState hy, h2, Alerter.enterAlert,
    alertRecovered]

/-- The test `TestAlerterStateTransitions`: samples 43, 41 and then 41 for as long as the
mock is asked, against the threshold 42. -/
theorem alert_then_recover_witness :
    (∀ z ∈ [F64.num 43], F64.ge z testAlerter.threshold = true) ∧
      (∀ z ∈ [F64.num 41, F64.num 41, F64.num 41], F64.lt z testAlerter.threshold = true) ∧
      testAlerter.PrintAlertStateChange ([F64.num 43] ++ [F64.num 41, F64.num 41, F64.num 41]) =
        (alertState.AlertLowState,
          [Write.mk msgHighTraffic [FmtArg.float (F64.num 43), FmtArg.duration (2 * second)],
            Write.mk msgRecovered []]) :=
  have hhigh : ∀ z ∈ [F64.num 43], F64.ge z testAlerter.threshold = true := by
    simp [testAlerter, F64.ge]; norm_num
  have hlow : ∀ z ∈ [F64.num 41, F64.num 41, F64.num 41],
      F64.lt z testAlerter.threshold = true := by
    simp [testAlerter, F64.lt]; norm_num
  ⟨hhigh, hlow, alert_then_recover testAlerter (F64.num 43) (F64.num 41) []
    [F64.num 41, F64.num 41] hhigh hlow⟩

/-- C10, as the code has it. A run whose samples all lie below the threshold (none is
`>= T`) writes nothing and stays in `AlertLowState`. A non-empty run whose samples all lie
at or above the threshold writes exactly one message, the enter-alert message of its
first sample, since the alerter starts in `AlertLowState`. -/
theorem no_crossing (a : Alerter) (samples : List F64) :
    ((∀ x ∈ samples, F64.ge x a.threshold = false) →
        a.PrintAlertStateChange samples = (alertState.AlertLowState, [])) ∧
      ((∀ x ∈ samples, F64.ge x a.threshold = true) → samples ≠ [] →
        ∃ x rest, samples = x :: rest ∧
          a.PrintAlertStateChange samples =
            (alertState.AlertHighState,
              [Write.mk msgHighTraffic [FmtArg.float x, FmtArg.duration a.period]])) := by
  constructor
  · intro h
    exact runFrom_low_of_none_ge a samples h
  · intro h hne
    cases samples with
    | nil => exact absurd rfl hne
    | cons x rest => exact ⟨x, rest, rfl, run_all_ge a x rest h⟩

/-- The test `TestAlerterWhenAvgBelowThreshold`: the sample 41 on every tick, against the
threshold 42. -/
theorem no_crossing_witness :
    (∀ x ∈ [F64.num 41, F64.num 41, F64.num 41], F64.ge x testAlerter.threshold = false) ∧
      testAlerter.PrintAlertStateChange [F64.num 41, F64.num 41, F64.num 41] =
        (alertState.AlertLowState, []) :=
  have hlow : ∀ x ∈ [F64.num 41, F64.num 41, F64.num 41],
      F64.ge x testAlerter.threshold = false := by
    simp [testAlerter, F64.ge]; norm_num
  ⟨hlow, (no_crossing testAlerter [F64.num 41, F64.num 41, F64.num 41]).1 hlow⟩

/-- C10 fails for a run that stays on the upper side of the threshold: the samples 43, 43
against the threshold 42 never move across it, and one message is written. -/
theorem no_crossing_counterexample :
    (∀ x ∈ [F64.num 43, F64.num 43], F64.ge x testAlerter.threshold = true) ∧
      (testAlerter.PrintAlertStateChange [F64.num 43, F64.num 43]).2 =
        [Write.mk msgHighTraffic [FmtArg.float (F64.num 43), FmtArg.duration (2 * second)]] ∧
      (testAlerter.PrintAlertStateChange [F64.num 43, F64.num 43]).2 ≠ [] := by
  have hhigh : ∀ x ∈ [F64.num 43, F64.num 43], F64.ge x testAlerter.threshold = true := by
    simp [testAlerter, F64.ge]; norm_num
  have hrun := run_all_ge testAlerter (F64.num 43) [F64.num 43] hhigh
  refine ⟨hhigh, ?_, ?_⟩
  · rw [hrun]; rfl
  · rw [hrun]; simp

/-! ## `TopNSectionsSince` -/

theorem lookup_insert_getD (m : SectionHits) (k k1 : sectionName) (v : Int) :
    ((m.insert k1 v).lookup k).getD 0 = if k = k1 then v else (m.lookup k).getD 0 := by
  by_cases h : k = k1
  · subst h; simp
  · simp [h, AList.lookup_insert_ne h]

theorem foldl_merge_lookup (k : sectionName) :
    ∀ (l : List (Sigma (fun _ : sectionName => Int))) (m : SectionHits), l.NodupKeys →
      ((l.foldl (fun m e => m.insert e.1 ((m.lookup e.1).getD 0 + e.2)) m).lookup k).getD 0
        = (m.lookup k).getD 0 + (List.dlookup k l).getD 0 := by
  intro l
  induction l with
  | nil => intro m _; simp
  | cons e rest ih =>
    intro m hnd
    obtain ⟨k1, v⟩ := e
    obtain ⟨hnot, hrest⟩ := List.nodupKeys_cons.mp hnd
    rw [List.foldl_cons, ih _ hrest, lookup_insert_getD]
    by_cases h : k = k1
    · subst h
      have hnone : List.dlookup k rest = none := List.dlookup_eq_none.mpr hnot
      simp [hnone, List.dlookup_cons_eq]
    · have hne : k ≠ (Sigma.mk k1 v : Sigma (fun _ : sectionName => Int)).1 := h
      simp [h, List.dlookup_cons_ne rest _ hne]

theorem foldl_merge_mem (k : sectionName) :
    ∀ (l : List (Sigma (fun _ : sectionName => Int))) (m : SectionHits),
      k ∈ l.foldl (fun m e => m.insert e.1 ((m.lookup e.1).getD 0 + e.2)) m
        ↔ k ∈ m ∨ k ∈ l.keys := by
  intro l
  induction l with
  | nil => intro m; simp
  | cons e rest ih =>
    intro m
    rw [List.foldl_cons, ih, AList.mem_insert, List.keys_cons, List.mem_cons]
    tauto

theorem mergeRow_lookup (mo : MapOrder) (m : SectionHits) (row : Row) (k : sectionName) :
    ((mergeRow mo m row).lookup k).getD 0
      = (m.lookup k).getD 0 + (row.perSectionHits.lookup k).getD 0 := by
  unfold mergeRow
  have hperm := mo.perm row.perSectionHits.entries
  have hnd : (mo.order row.perSectionHits.entries).NodupKeys :=
    (List.perm_nodupKeys hperm).mpr row.perSectionHits.nodupKeys
  rw [foldl_merge_lookup k _ m hnd, List.perm_dlookup k hnd row.perSectionHits.nodupKeys hperm]
  rfl

theorem mergeRow_mem (mo : MapOrder) (m : SectionHits) (row : Row) (k : sectionName) :
    k ∈ mergeRow mo m row ↔ k ∈ m ∨ k ∈ row.perSectionHits := by
  unfold mergeRow
  rw [foldl_merge_mem]
  have hperm := mo.perm row.perSectionHits.entries
  have hkeys : k ∈ (mo.order row.perSectionHits.entries).keys ↔ k ∈ row.perSectionHits.keys :=
    (hperm.map Sigma.fst).mem_iff
  rw [hkeys]
  simp only [AList.mem_keys]

theorem merged_lookup (mo : MapOrder) (k : sectionName) :
    ∀ (rows : List Row) (m : SectionHits),
      ((rows.foldl (mergeRow mo) m).lookup k).getD 0 = (m.lookup k).getD 0 + windowHits rows k := by
  intro rows
  induction rows with
  | nil => intro m; simp [windowHits]
  | cons r rest ih =>
    intro m
    rw [List.foldl_cons, ih, mergeRow_lookup]
    simp [windowHits, add_assoc]

theorem merged_mem (mo : MapOrder) (k : sectionName) :
    ∀ (rows : List Row) (m : SectionHits),
      k ∈ rows.foldl (mergeRow mo) m ↔ k ∈ m ∨ ∃ r ∈ rows, k ∈ r.perSectionHits := by
  intro rows
  induction rows with
  | nil => intro m; simp
  | cons r rest ih =>
    intro m
    rw [List.foldl_cons, ih, mergeRow_mem]
    simp only [List.mem_cons, exists_eq_or_imp]
    tauto

theorem mem_windowSections {rows : List Row} {k : sectionName} :
    k ∈ windowSections rows ↔ ∃ r ∈ rows, k ∈ r.perSectionHits := by
  unfold windowSections
  rw [List.mem_dedup, List.mem_flatMap]
  simp [AList.mem_keys]

theorem windowStats_names (rows : List Row) :
    (windowStats rows).map SectionStats.sectionName = windowSections rows := by
  unfold windowStats
  rw [List.map_map]
  exact List.map_id'' (fun _ => rfl) _

theorem windowStats_nodup (rows : List Row) : (windowStats rows).Nodup := by
  apply List.Nodup.of_map SectionStats.sectionName
  rw [windowStats_names]
  exact List.nodup_dedup _

theorem mem_windowStats {rows : List Row} {e : SectionStats} :
    e ∈ windowStats rows ↔
      e.sectionName ∈ windowSections rows ∧ e.hits = windowHits rows e.sectionName := by
  unfold windowStats
  rw [List.mem_map]
  constructor
  · rintro ⟨k, hk, rfl⟩
    exact ⟨hk, rfl⟩
  · rintro ⟨hk, hh⟩
    refine ⟨e.sectionName, hk, ?_⟩
    cases e
    simp_all

theorem merged_stats_perm (mo : MapOrder) (rows : List Row) :
    ((mo.order (rows.foldl (mergeRow mo) ∅).entries).map
      (fun e => SectionStats.mk e.1 e.2)).Perm (windowStats rows) := by
  set M := rows.foldl (mergeRow mo) ∅ with hM
  have hlook : ∀ k, (M.lookup k).getD 0 = windowHits rows k := by
    intro k
    rw [hM, merged_lookup]
    simp
  have hmem : ∀ k, k ∈ M ↔ k ∈ windowSections rows := by
    intro k
    rw [hM, merged_mem, mem_windowSections]
    simp
  refine ((mo.perm M.entries).map _).trans ?_
  have hnd : (M.entries.map (fun e => SectionStats.mk e.1 e.2)).Nodup := by
    apply List.Nodup.of_map SectionStats.sectionName
    rw [List.map_map]
    exact M.keys_nodup
  rw [List.perm_ext_iff_of_nodup hnd (windowStats_nodup rows)]
  intro st
  rw [mem_windowStats, List.mem_map]
  constructor
  · rintro ⟨e, he, rfl⟩
    obtain ⟨k, v⟩ := e
    have hl : M.lookup k = some v := AList.mem_lookup_iff.mpr he
    have hk : k ∈ M := AList.lookup_isSome.mp (by simp [hl])
    refine ⟨(hmem k).mp hk, ?_⟩
    have := hlook k
    rw [hl] at this
    simpa using this
  · rintro ⟨hk, hh⟩
    have hkM : st.sectionName ∈ M := (hmem st.sectionName).mpr hk
    cases hl : M.lookup st.sectionName with
    | none => exact absurd hkM (AList.lookup_eq_none.mp hl)
    | some v =>
      refine ⟨⟨st.sectionName, v⟩, AList.mem_lookup_iff.mp hl, ?_⟩
      have := hlook st.sectionName
      rw [hl] at this
      cases st
      simp_all

theorem topN_structure (ts : Timeseries) (mo : MapOrder) (ss : SliceSort) (now n d : Int) :
    ∃ all : List SectionStats,
      all.Perm (windowStats (ts.GetRowsSince now d)) ∧
      all.Pairwise (fun a b => b.hits ≤ a.hits) ∧
      ts.TopNSectionsSince mo ss now n d =
        if n < 0 then none else some (all.take n.toNat) := by
  refine ⟨ss.sort ((mo.order ((ts.GetRowsSince now d).foldl (mergeRow mo) ∅).entries).map
    (fun e => SectionStats.mk e.1 e.2)), ?_, ?_, ?_⟩
  · exact (ss.perm _).trans (merged_stats_perm mo _)
  · refine List.Pairwise.imp ?_ (ss.sorted _)
    intro a b hab
    simpa [lessHits] using hab
  · simp only [Timeseries.TopNSectionsSince]
    split_ifs with h1 h2 h3
    · omega
    · rw [List.take_of_length_le]
      omega
    · rfl
    · rfl

theorem topN_some {ts : Timeseries} {mo : MapOrder} {ss : SliceSort} {now n d : Int}
    {out : List SectionStats} (h : ts.TopNSectionsSince mo ss now n d = some out) :
    0 ≤ n ∧ ∃ all : List SectionStats,
      all.Perm (windowStats (ts.GetRowsSince now d)) ∧
      all.Pairwise (fun a b => b.hits ≤ a.hits) ∧ out = all.take n.toNat := by
  obtain ⟨all, hperm, hsorted, hres⟩ := topN_structure ts mo ss now n d
  rw [hres] at h
  split_ifs at h with hn
  simp only [Option.some.injEq] at h
  exact ⟨by omega, all, hperm, hsorted, h.symm⟩

theorem hits_sorted_unique {l1 l2 : List SectionStats} (hperm : l1.Perm l2)
    (h1 : l1.Pairwise (fun a b => b.hits ≤ a.hits))
    (h2 : l2.Pairwise (fun a b => b.hits ≤ a.hits)) :
    l1.map SectionStats.hits = l2.map SectionStats.hits := by
  have hp : (l1.map SectionStats.hits).Perm (l2.map SectionStats.hits) := hperm.map _
  have s1 : (l1.map SectionStats.hits).Sorted (fun a b : Int => b ≤ a) :=
    List.pairwise_map.mpr h1
  have s2 : (l2.map SectionStats.hits).Sorted (fun a b : Int => b ≤ a) :=
    List.pairwise_map.mpr h2
  haveI : IsAntisymm Int (fun a b : Int => b ≤ a) := ⟨fun _ _ hab hba => le_antisymm hba hab⟩
  exact List.eq_of_perm_of_sorted hp s1 s2

theorem map_eq_of_injOn {α β : Type} (f : α → β) :
    ∀ l1 l2 : List α, (∀ a ∈ l1, ∀ b ∈ l2, f a = f b → a = b) →
      l1.map f = l2.map f → l1 = l2 := by
  intro l1
  induction l1 with
  | nil =>
    intro l2 _ h
    cases l2 with
    | nil => rfl
    | cons b t => simp at h
  | cons a t ih =>
    intro l2 hinj h
    cases l2 with
    | nil => simp at h
    | cons b t2 =>
      simp only [List.map_cons, List.cons.injEq] at h
      have hab : a = b := hinj a (List.mem_cons_self a t) b (List.mem_cons_self b t2) h.1
      have ht : t = t2 := ih t2
        (fun x hx y hy => hinj x (List.mem_cons_of_mem a hx) y (List.mem_cons_of_mem b hy)) h.2
      rw [hab, ht]

theorem tie_top_two (mo : MapOrder) (ss : SliceSort) :
    ∃ top, tieStore.TopNSectionsSince mo ss (2 * second) 2 (10 * second) = some top ∧
      top.Perm [SectionStats.mk "/A" 5, SectionStats.mk "/B" 5] := by
  obtain ⟨all, hperm, hsorted, hres⟩ :=
    topN_structure tieStore mo ss (2 * second) 2 (10 * second)
  have hstats : windowStats (tieStore.GetRowsSince (2 * second) (10 * second)) =
      [SectionStats.mk "/C" 2, SectionStats.mk "/B" 5, SectionStats.mk "/A" 5] := by decide
  rw [hstats] at hperm
  have hlen : all.length = 3 := hperm.length_eq
  match all, hlen with
  | [x, y, z], _ =>
    refine ⟨[x, y], by simpa using hres, ?_⟩
    have hx : x ∈ [SectionStats.mk "/C" 2, SectionStats.mk "/B" 5, SectionStats.mk "/A" 5] :=
      hperm.mem_iff.mp (by simp)
    have hy : y ∈ [SectionStats.mk "/C" 2, SectionStats.mk "/B" 5, SectionStats.mk "/A" 5] :=
      hperm.mem_iff.mp (by simp)
    have hz : z ∈ [SectionStats.mk "/C" 2, SectionStats.mk "/B" 5, SectionStats.mk "/A" 5] :=
      hperm.mem_iff.mp (by simp)
    simp only [List.mem_cons, List.mem_singleton, List.not_mem_nil, or_false] at hx hy hz
    rcases hx with rfl | rfl | rfl <;> rcases hy with rfl | rfl | rfl <;>
      rcases hz with rfl | rfl | rfl <;>
      first
        | decide
        | (exfalso; revert hsorted; decide)
        | (exfalso; revert hperm; decide)

/-- C5. For every store, every way the map is iterated and the slice sorted, every
`n >= 0` and every window `d`, `TopNSectionsSince(n, d)` returns a sequence that is sorted
by decreasing hit count, whose length is the smaller of `n` and the number of distinct
sections of the rows of `GetRowsSince(d)`, and that holds the highest counts: a section of
the window that is not returned has a merged count no larger than the count of any
returned entry. A freshly constructed store gives the empty sequence. With merged counts
`/A`: 5, `/B`: 5, `/C`: 2 and `n = 2` the result is made of `/A` and `/B`. -/
theorem topN_highest (ts : Timeseries) (mo : MapOrder) (ss : SliceSort) (now n d : Int)
    (hn : 0 ≤ n) :
    ∃ out, ts.TopNSectionsSince mo ss now n d = some out ∧
      out.Pairwise (fun a b => b.hits ≤ a.hits) ∧
      (out.length : Int) = min n (windowSections (ts.GetRowsSince now d)).length ∧
      (∀ k ∈ windowSections (ts.GetRowsSince now d),
        k ∉ out.map SectionStats.sectionName →
          ∀ e ∈ out, windowHits (ts.GetRowsSince now d) k ≤ e.hits) ∧
      (∀ retention ts0, NewTimeseries retention = some (.ok ts0) →
        ts0.TopNSectionsSince mo ss now n d = some []) ∧
      (∃ top, tieStore.TopNSectionsSince mo ss (2 * second) 2 (10 * second) = some top ∧
        top.Perm [SectionStats.mk "/A" 5, SectionStats.mk "/B" 5]) := by
  obtain ⟨all, hperm, hsorted, hres⟩ := topN_structure ts mo ss now n d
  rw [if_neg (by omega)] at hres
  refine ⟨all.take n.toNat, hres, ?_, ?_, ?_, ?_, tie_top_two mo ss⟩
  · exact List.Pairwise.sublist (List.take_sublist _ _) hsorted
  · have hlen : all.length = (windowSections (ts.GetRowsSince now d)).length := by
      rw [hperm.length_eq, ← windowStats_names, List.length_map]
    rw [List.length_take, hlen]
    omega
  · intro k hk hnot e he
    have hst : SectionStats.mk k (windowHits (ts.GetRowsSince now d) k) ∈ all :=
      hperm.mem_iff.mpr (mem_windowStats.mpr ⟨hk, rfl⟩)
    rw [← List.take_append_drop n.toNat all] at hst hsorted
    rcases List.mem_append.mp hst with h1 | h2
    · exact absurd (List.mem_map_of_mem SectionStats.sectionName h1) hnot
    · exact (List.pairwise_append.mp hsorted).2.2 e he _ h2
  · intro retention ts0 hnew
    obtain ⟨all0, hperm0, _, hres0⟩ := topN_structure ts0 mo ss now n d
    rw [if_neg (by omega)] at hres0
    rw [newTimeseries_ok hnew] at hperm0
    have hnil : all0 = [] := List.Perm.eq_nil hperm0
    rw [hres0, hnil, List.take_nil]

/-- The two highest sections of the tie store, for one way of iterating and sorting. -/
theorem topN_highest_witness :
    (0 : Int) ≤ 2 ∧
      ∃ out, tieStore.TopNSectionsSince MapOrder.stored SliceSort.insertion (2 * second) 2
          (10 * second) = some out ∧
        out.Pairwise (fun a b => b.hits ≤ a.hits) ∧
        (out.length : Int) =
          min 2 (windowSections (tieStore.GetRowsSince (2 * second) (10 * second))).length :=
  ⟨by decide,
    (topN_highest tieStore MapOrder.stored SliceSort.insertion (2 * second) 2 (10 * second)
      (by decide)).imp (fun _ h => ⟨h.1, h.2.1, h.2.2.1⟩)⟩

/-- C6. For every store, `n` and window `d`, whatever the map iteration and sort order,
each entry returned by `TopNSectionsSince(n, d)` names a section that is a key of
`perSectionHits` in some row of `GetRowsSince(d)`, its hit count is the sum of that
section's `perSectionHits` over all rows of `GetRowsSince(d)`, and no section is named
twice. -/
theorem topN_entries (ts : Timeseries) (mo : MapOrder) (ss : SliceSort) (now n d : Int)
    (out : List SectionStats) (h : ts.TopNSectionsSince mo ss now n d = some out) :
    (out.map SectionStats.sectionName).Nodup ∧
      ∀ e ∈ out,
        (∃ r ∈ ts.GetRowsSince now d, e.sectionName ∈ r.perSectionHits.keys) ∧
          e.hits = ((ts.GetRowsSince now d).map
            (fun r => (r.perSectionHits.lookup e.sectionName).getD 0)).sum := by
  obtain ⟨_, all, hperm, _, rfl⟩ := topN_some h
  constructor
  · have hall : (all.map SectionStats.sectionName).Nodup := by
      have hp : (all.map SectionStats.sectionName).Perm
          (windowSections (ts.GetRowsSince now d)) := by
        rw [← windowStats_names]
        exact hperm.map _
      exact hp.nodup_iff.mpr (List.nodup_dedup _)
    exact List.Nodup.sublist ((List.take_sublist _ _).map _) hall
  · intro e he
    have hmem : e ∈ windowStats (ts.GetRowsSince now d) :=
      hperm.mem_iff.mp (List.mem_of_mem_take he)
    obtain ⟨hk, hh⟩ := mem_windowStats.mp hmem
    obtain ⟨r, hr, hkr⟩ := mem_windowSections.mp hk
    exact ⟨⟨r, hr, AList.mem_keys.mp hkr⟩, hh⟩

/-- The top two entries of the tie store, for one way of iterating and sorting. -/
theorem topN_entries_witness :
    tieStore.TopNSectionsSince MapOrder.stored SliceSort.insertion (2 * second) 2
        (10 * second) = some [SectionStats.mk "/A" 5, SectionStats.mk "/B" 5] ∧
      ([SectionStats.mk "/A" 5, SectionStats.mk "/B" 5].map SectionStats.sectionName).Nodup ∧
      ∀ e ∈ [SectionStats.mk "/A" 5, SectionStats.mk "/B" 5],
        (∃ r ∈ tieStore.GetRowsSince (2 * second) (10 * second),
          e.sectionName ∈ r.perSectionHits.keys) ∧
          e.hits = ((tieStore.GetRowsSince (2 * second) (10 * second)).map
            (fun r => (r.perSectionHits.lookup e.sectionName).getD 0)).sum :=
  ⟨by decide,
    topN_entries tieStore MapOrder.stored SliceSort.insertion (2 * second) 2 (10 * second)
      [SectionStats.mk "/A" 5, SectionStats.mk "/B" 5] (by decide)⟩

/-- C7, as the code has it. Two queries on the same store, instant, `n` and window, each
with its own map iteration order and its own sort behaviour, fail together or return
sequences with the same hit count at every position; when no two sections of the window
have the same merged count they return the same sequence. The order of sections of equal
count is whatever map iteration and `sort.Slice` produce. -/
theorem topN_deterministic_up_to_ties (ts : Timeseries) (mo1 mo2 : MapOrder)
    (ss1 ss2 : SliceSort) (now n d : Int) :
    (ts.TopNSectionsSince mo1 ss1 now n d).map (List.map SectionStats.hits) =
        (ts.TopNSectionsSince mo2 ss2 now n d).map (List.map SectionStats.hits) ∧
      (((windowStats (ts.GetRowsSince now d)).map SectionStats.hits).Nodup →
        ts.TopNSectionsSince mo1 ss1 now n d = ts.TopNSectionsSince mo2 ss2 now n d) := by
  obtain ⟨all1, hperm1, hsorted1, hres1⟩ := topN_structure ts mo1 ss1 now n d
  obtain ⟨all2, hperm2, hsorted2, hres2⟩ := topN_structure ts mo2 ss2 now n d
  have hhits : all1.map SectionStats.hits = all2.map SectionStats.hits :=
    hits_sorted_unique (hperm1.trans hperm2.symm) hsorted1 hsorted2
  rw [hres1, hres2]
  constructor
  · split_ifs
    · rfl
    · simp only [Option.map_some', Option.some.injEq, List.map_take, hhits]
  · intro hnd
    have hall : all1 = all2 := by
      apply map_eq_of_injOn SectionStats.hits all1 all2 _ hhits
      intro a ha b hb hab
      exact List.inj_on_of_nodup_map hnd (hperm1.mem_iff.mp ha) (hperm2.mem_iff.mp hb) hab
    rw [hall]

/-- C7 fails on the code: on the tie store, where `/A` and `/B` both have 5 hits, the
top-1 query returns `/A` when the maps are iterated by increasing name and `/B` when they
are iterated by decreasing name (same sort); it also returns `/B` under the first
iteration order when the sort places equal elements the other way round. -/
theorem topN_tie_counterexample :
    tieStore.TopNSectionsSince MapOrder.ascendingNames SliceSort.insertion (2 * second) 1
        (10 * second) = some [SectionStats.mk "/A" 5] ∧
      tieStore.TopNSectionsSince MapOrder.descendingNames SliceSort.insertion (2 * second) 1
        (10 * second) = some [SectionStats.mk "/B" 5] ∧
      tieStore.TopNSectionsSince MapOrder.ascendingNames SliceSort.insertionReversed
        (2 * second) 1 (10 * second) = some [SectionStats.mk "/B" 5] ∧
      tieStore.TopNSectionsSince MapOrder.ascendingNames SliceSort.insertion (2 * second) 1
          (10 * second) ≠
        tieStore.TopNSectionsSince MapOrder.descendingNames SliceSort.insertion (2 * second) 1
          (10 * second) := by
  decide

/-! ## Aggregator -/

theorem tickerCase_cases (row : Row) (now : Int) :
    (row.time ≠ 0 ∧ (timeTruncate now second, Location.localLoc) ≠ (row.time, row.loc) ∧
        tickerCase row now = (some row, NewRow 0 Location.nilLoc)) ∨
      ((row.time = 0 ∨ (timeTruncate now second, Location.localLoc) = (row.time, row.loc)) ∧
        tickerCase row now = (none, row)) := by
  unfold tickerCase
  by_cases h0 : row.time = 0
  · right; simp [h0]
  · by_cases h1 : (timeTruncate now second, Location.localLoc) = (row.time, row.loc)
    · right; rw [if_neg h0, if_neg (not_not.mpr h1)]; exact ⟨Or.inr h1, rfl⟩
    · left; rw [if_neg h0, if_pos h1]; exact ⟨h0, h1, rfl⟩

theorem hitCase_cases (row : Row) (h : HTTPHit) :
    (row.time = 0 ∧
        hitCase row h =
          (none,
            ({ row with time := timeTruncate h.time second, loc := h.loc } : Row).accumulate
              h)) ∨
      (row.time ≠ 0 ∧ (timeTruncate h.time second, h.loc) ≠ (row.time, row.loc) ∧
        hitCase row h =
          (some row, (NewRow (timeTruncate h.time second) h.loc).accumulate h)) ∨
      (row.time ≠ 0 ∧ (timeTruncate h.time second, h.loc) = (row.time, row.loc) ∧
        hitCase row h = (none, row.accumulate h)) := by
  by_cases h0 : row.time = 0
  · left
    unfold hitCase
    simp [h0]
  · by_cases h1 : (timeTruncate h.time second, h.loc) = (row.time, row.loc)
    · have hc : hitCase row h = (none, row.accumulate h) := by
        unfold hitCase
        simp only [h0, if_false]
        rw [if_neg (not_not.mpr h1)]
      exact Or.inr (Or.inr ⟨h0, h1, hc⟩)
    · have hc : hitCase row h =
          (some row, (NewRow (timeTruncate h.time second) h.loc).accumulate h) := by
        unfold hitCase
        simp only [h0, if_false]
        rw [if_pos h1]
      exact Or.inr (Or.inl ⟨h0, h1, hc⟩)

theorem handedRows_tick (row : Row) (now : Int) (rest : List Event) :
    handedRows row (Event.tick now :: rest) =
      (((tickerCase row now).1.map (fun r => (now, r))).toList ++
          (handedRows (tickerCase row now).2 rest).1,
        (handedRows (tickerCase row now).2 rest).2) := by
  rcases tickerCase_cases row now with ⟨_, _, h⟩ | ⟨_, h⟩ <;> simp [handedRows, h]

theorem handedRows_hit (row : Row) (now : Int) (h : HTTPHit) (rest : List Event) :
    handedRows row (Event.hit now h :: rest) =
      (((hitCase row h).1.map (fun r => (now, r))).toList ++
          (handedRows (hitCase row h).2 rest).1,
        (handedRows (hitCase row h).2 rest).2) := by
  rcases hitCase_cases row h with ⟨_, hc⟩ | ⟨_, _, hc⟩ | ⟨_, _, hc⟩ <;> simp [handedRows, hc]

theorem aggregateLoop_eq_insertAll (events : List Event) :
    ∀ (row : Row) (ts : Timeseries),
      aggregateLoop row ts events =
        (ts.insertAll (handedRows row events).1).map
          (fun ts1 => ((handedRows row events).2, ts1)) := by
  induction events with
  | nil => intro row ts; simp [aggregateLoop, handedRows, Timeseries.insertAll]
  | cons ev rest ih =>
    intro row ts
    cases ev with
    | closed => simp [aggregateLoop, handedRows, Timeseries.insertAll]
    | tick now =>
      rcases tickerCase_cases row now with ⟨_, _, hc⟩ | ⟨_, hc⟩
      · simp only [aggregateLoop, handedRows, hc, Timeseries.insertAll]
        cases ts.insert now row with
        | none => simp
        | some ts1 => simp [ih]
      · simp only [aggregateLoop, handedRows, hc, ih]
    | hit now h =>
      rcases hitCase_cases row h with ⟨_, hc⟩ | ⟨_, _, hc⟩ | ⟨_, _, hc⟩
      · simp only [aggregateLoop, handedRows, hc, ih]
      · simp only [aggregateLoop, handedRows, hc, Timeseries.insertAll]
        cases ts.insert now row with
        | none => simp
        | some ts1 => simp [ih]
      · simp only [aggregateLoop, handedRows, hc, ih]

theorem aggregateHits_some {ts ts1 : Timeseries} {events : List Event} {row1 : Row}
    (h : aggregateHits ts events = some (row1, ts1)) :
    row1 = (handedRows (NewRow 0 Location.nilLoc) events).2 ∧
      ts.insertAll (handedRows (NewRow 0 Location.nilLoc) events).1 = some ts1 := by
  unfold aggregateHits at h
  rw [aggregateLoop_eq_insertAll] at h
  cases hi : ts.insertAll (handedRows (NewRow 0 Location.nilLoc) events).1 with
  | none => simp [hi] at h
  | some t =>
    simp only [hi, Option.map_some', Option.some.injEq, Prod.mk.injEq] at h
    exact ⟨h.1.symm, by rw [h.2]⟩

theorem stored_of_handed {ts ts1 : Timeseries} {events : List Event} {row1 : Row}
    (hfresh : ts.s = []) (h : aggregateHits ts events = some (row1, ts1)) :
    ∃ pre, (handedRows (NewRow 0 Location.nilLoc) events).1.map Prod.snd = pre ++ ts1.s := by
  obtain ⟨_, hins⟩ := aggregateHits_some h
  obtain ⟨_, pre, hpre⟩ := insertAll_suffix _ hins
  rw [hfresh, List.nil_append] at hpre
  exact ⟨pre, hpre⟩

theorem handedRows_invariant (Inv Good : Row → Prop)
    (hhit : ∀ row h, Inv row →
      Inv (hitCase row h).2 ∧ ∀ r, (hitCase row h).1 = some r → Good r)
    (htick : ∀ row now, Inv row →
      Inv (tickerCase row now).2 ∧ ∀ r, (tickerCase row now).1 = some r → Good r) :
    ∀ (events : List Event) (row : Row), Inv row →
      Inv (handedRows row events).2 ∧ ∀ p ∈ (handedRows row events).1, Good p.2 := by
  intro events
  induction events with
  | nil => intro row hrow; simp [handedRows, hrow]
  | cons ev rest ih =>
    intro row hrow
    cases ev with
    | closed => simp [handedRows, hrow]
    | tick now =>
      obtain ⟨hinv, hgood⟩ := htick row now hrow
      obtain ⟨h1, h2⟩ := ih _ hinv
      rw [handedRows_tick]
      refine ⟨h1, ?_⟩
      intro p hp
      rcases List.mem_append.mp hp with hp | hp
      · cases hf : (tickerCase row now).1 with
        | none => simp [hf] at hp
        | some r =>
          simp only [hf, Option.map_some', Option.toList_some, List.mem_singleton] at hp
          rw [hp]
          exact hgood r hf
      · exact h2 p hp
    | hit now h =>
      obtain ⟨hinv, hgood⟩ := hhit row h hrow
      obtain ⟨h1, h2⟩ := ih _ hinv
      rw [handedRows_hit]
      refine ⟨h1, ?_⟩
      intro p hp
      rcases List.mem_append.mp hp with hp | hp
      · cases hf : (hitCase row h).1 with
        | none => simp [hf] at hp
        | some r =>
          simp only [hf, Option.map_some', Option.toList_some, List.mem_singleton] at hp
          rw [hp]
          exact hgood r hf
      · exact h2 p hp


theorem accumulate_time (row : Row) (h : HTTPHit) : (row.accumulate h).time = row.time := rfl

theorem accumulate_loc (row : Row) (h : HTTPHit) : (row.accumulate h).loc = row.loc := rfl

theorem handedRows_increasing (events : List Event) :
    ∀ (row : Row) (lo : Int), (row.time ≠ 0 → row.time ≤ lo ∧ row.loc = Location.localLoc) →
      (∀ s ∈ eventSeconds events, lo ≤ s) →
      (eventSeconds events).Pairwise (fun a b => a ≤ b) →
      (∀ h ∈ processedHits events,
        h.loc = Location.localLoc ∨ timeTruncate h.time second = 0) →
      ((handedRows row events).1.map (fun p => p.2.time)).Pairwise (fun a b => a < b) ∧
        ∀ p ∈ (handedRows row events).1,
          (if row.time ≠ 0 then row.time else lo) ≤ p.2.time := by
  induction events with
  | nil => intro row lo _ _ _ _; simp [handedRows]
  | cons ev rest ih =>
    intro row lo hrow hlo hsorted hloc
    cases ev with
    | closed => simp [handedRows]
    | tick now =>
      simp only [eventSeconds, List.mem_cons, forall_eq_or_imp, List.pairwise_cons] at hlo hsorted
      simp only [processedHits] at hloc
      obtain ⟨hs, _⟩ := hlo
      obtain ⟨hrest, hsorted⟩ := hsorted
      rcases tickerCase_cases row now with ⟨h0, hne, hc⟩ | ⟨hor, hc⟩
      · obtain ⟨ih1, ih2⟩ := ih (NewRow 0 Location.nilLoc) (timeTruncate now second)
          (fun h => absurd rfl h) hrest hsorted hloc
        have hinst : timeTruncate now second ≠ row.time := by
          intro heq
          exact hne (by rw [heq, (hrow h0).2])
        have hlt : row.time < timeTruncate now second :=
          lt_of_le_of_ne (le_trans (hrow h0).1 hs) (Ne.symm hinst)
        simp only [NewRow, ne_eq, not_true_eq_false, if_false] at ih2
        simp only [handedRows, hc, List.map_cons, List.pairwise_cons, List.mem_map,
          List.mem_cons, forall_eq_or_imp, h0, ne_eq, not_false_eq_true, if_true, le_refl,
          true_and]
        refine ⟨⟨?_, ih1⟩, ?_⟩
        · rintro t ⟨p, hp, rfl⟩
          exact lt_of_lt_of_le hlt (ih2 p hp)
        · intro p hp
          exact le_of_lt (lt_of_lt_of_le hlt (ih2 p hp))
      · have hrow1 : row.time ≠ 0 →
            row.time ≤ timeTruncate now second ∧ row.loc = Location.localLoc :=
          fun h => ⟨le_trans (hrow h).1 hs, (hrow h).2⟩
        obtain ⟨ih1, ih2⟩ := ih row (timeTruncate now second) hrow1 hrest hsorted hloc
        simp only [handedRows, hc]
        refine ⟨ih1, ?_⟩
        intro p hp
        have := ih2 p hp
        split_ifs at this ⊢ <;> omega
    | hit now h =>
      simp only [eventSeconds, List.mem_cons, forall_eq_or_imp, List.pairwise_cons] at hlo hsorted
      simp only [processedHits, List.mem_cons, forall_eq_or_imp] at hloc
      obtain ⟨hs, _⟩ := hlo
      obtain ⟨hrest, hsorted⟩ := hsorted
      obtain ⟨hh, hloc⟩ := hloc
      have hnew : ∀ r : Row, r.time = timeTruncate h.time second → r.loc = h.loc →
          (r.time ≠ 0 → r.time ≤ timeTruncate h.time second ∧ r.loc = Location.localLoc) := by
        intro r ht hl hne
        refine ⟨le_of_eq ht, ?_⟩
        rcases hh with hh | hh
        · rw [hl, hh]
        · exact absurd (ht.trans hh) hne
      rcases hitCase_cases row h with ⟨h0, hc⟩ | ⟨h0, hne, hc⟩ | ⟨h0, heq, hc⟩
      · obtain ⟨ih1, ih2⟩ := ih
          (({ row with time := timeTruncate h.time second, loc := h.loc } : Row).accumulate h)
          (timeTruncate h.time second) (hnew _ rfl rfl) hrest hsorted hloc
        simp only [handedRows, hc]
        refine ⟨ih1, ?_⟩
        intro p hp
        have := ih2 p hp
        simp only [accumulate_time] at this
        split_ifs at this ⊢ <;> omega
      · obtain ⟨ih1, ih2⟩ := ih ((NewRow (timeTruncate h.time second) h.loc).accumulate h)
          (timeTruncate h.time second) (hnew _ rfl rfl) hrest hsorted hloc
        have hinst : timeTruncate h.time second ≠ row.time := by
          intro heq
          rcases hh with hh | hh
          · exact hne (by rw [heq, hh, (hrow h0).2])
          · exact h0 (heq.symm.trans hh)
        have hlt : row.time < timeTruncate h.time second :=
          lt_of_le_of_ne (le_trans (hrow h0).1 hs) (Ne.symm hinst)
        have hb : ∀ p ∈ (handedRows ((NewRow (timeTruncate h.time second) h.loc).accumulate h)
            rest).1, timeTruncate h.time second ≤ p.2.time := by
          intro p hp
          have := ih2 p hp
          simp only [accumulate_time, NewRow, ite_self] at this
          exact this
        simp only [handedRows, hc, List.map_cons, List.pairwise_cons, List.mem_map,
          List.mem_cons, forall_eq_or_imp, h0, ne_eq, not_false_eq_true, if_true, le_refl,
          true_and]
        refine ⟨⟨?_, ih1⟩, ?_⟩
        · rintro t ⟨p, hp, rfl⟩
          exact lt_of_lt_of_le hlt (hb p hp)
        · intro p hp
          exact le_of_lt (lt_of_lt_of_le hlt (hb p hp))
      · have hinst : timeTruncate h.time second = row.time := congrArg Prod.fst heq
        have hrow1 : (row.accumulate h).time ≠ 0 →
            (row.accumulate h).time ≤ timeTruncate h.time second ∧
              (row.accumulate h).loc = Location.localLoc := by
          intro _
          rw [accumulate_time, accumulate_loc, hinst]
          exact ⟨le_refl _, (hrow h0).2⟩
        obtain ⟨ih1, ih2⟩ := ih (row.accumulate h) (timeTruncate h.time second) hrow1
          hrest hsorted hloc
        simp only [handedRows, hc]
        refine ⟨ih1, ?_⟩
        intro p hp
        have := ih2 p hp
        simp only [accumulate_time, h0, ne_eq, not_false_eq_true, if_true] at this ⊢
        exact this

/-- C11, as the code has it. The aggregator does not check the order of what it inserts:
it flushes whenever the event's time differs from the open bucket's. For every
interleaving of hits and ticks, processed from the initial state, whose event seconds (a
hit's time truncated to the second, a tick's wall clock truncated to the second) never
decrease along the stream and whose dated hits carry the local location (the offset
written in the log is the one of the local zone), each row passed to `insert` has a
timestamp strictly greater than the one passed before, and a store that started empty
is, after the run, strictly increasing by timestamp. -/
theorem ordered_stream_increasing (events : List Event)
    (hsorted : (eventSeconds events).Pairwise (fun a b => a ≤ b))
    (hloc : ∀ h ∈ processedHits events,
      h.loc = Location.localLoc ∨ timeTruncate h.time second = 0) :
    ((handedRows (NewRow 0 Location.nilLoc) events).1.map (fun p => p.2.time)).Pairwise
        (fun a b => a < b) ∧
      ∀ (ts ts1 : Timeseries) (row1 : Row), ts.s = [] →
        aggregateHits ts events = some (row1, ts1) → StrictlyIncreasing ts1.s := by
  have hhanded : ((handedRows (NewRow 0 Location.nilLoc) events).1.map
      (fun p => p.2.time)).Pairwise (fun a b => a < b) := by
    cases hsec : eventSeconds events with
    | nil =>
      exact (handedRows_increasing events (NewRow 0 Location.nilLoc) 0
        (fun h => absurd rfl h) (by simp [hsec]) hsorted hloc).1
    | cons s0 more =>
      rw [hsec] at hsorted
      have hall : ∀ s ∈ eventSeconds events, s0 ≤ s := by
        intro s hs
        rw [hsec] at hs
        rcases List.mem_cons.mp hs with rfl | hmem
        · exact le_refl _
        · exact (List.pairwise_cons.mp hsorted).1 s hmem
      exact (handedRows_increasing events (NewRow 0 Location.nilLoc) s0
        (fun h => absurd rfl h) hall (by rw [hsec]; exact hsorted) hloc).1
  refine ⟨hhanded, ?_⟩
  intro ts ts1 row1 hfresh hrun
  obtain ⟨pre, hpre⟩ := stored_of_handed hfresh hrun
  have hrows : StrictlyIncreasing
      ((handedRows (NewRow 0 Location.nilLoc) events).1.map Prod.snd) := by
    unfold StrictlyIncreasing
    rw [List.pairwise_map]
    exact List.pairwise_map.mp hhanded
  unfold StrictlyIncreasing at hrows ⊢
  rw [hpre] at hrows
  exact (List.pairwise_append.mp hrows).2.1

/-- A stream in step with the clock: two hits of second 5, one of second 6, and ticks. -/
theorem ordered_stream_increasing_witness :
    (eventSeconds steadyEvents).Pairwise (fun a b => a ≤ b) ∧
      (∀ h ∈ processedHits steadyEvents,
        h.loc = Location.localLoc ∨ timeTruncate h.time second = 0) ∧
      aggregateHits freshStore steadyEvents =
        some (NewRow 0 Location.nilLoc,
          Timeseries.mk (120 * second)
            [((NewRow (5 * second) Location.localLoc).accumulate (hitAt 5)).accumulate
                (hitAt 5),
              (NewRow (6 * second) Location.localLoc).accumulate (hitAt 6)]) ∧
      StrictlyIncreasing
        [((NewRow (5 * second) Location.localLoc).accumulate (hitAt 5)).accumulate (hitAt 5),
          (NewRow (6 * second) Location.localLoc).accumulate (hitAt 6)] :=
  ⟨by decide, by decide, by decide,
    (ordered_stream_increasing steadyEvents (by decide) (by decide)).2 freshStore _ _ rfl
      (show aggregateHits freshStore steadyEvents = some (NewRow 0 Location.nilLoc,
          Timeseries.mk (120 * second)
            [((NewRow (5 * second) Location.localLoc).accumulate (hitAt 5)).accumulate
                (hitAt 5),
              (NewRow (6 * second) Location.localLoc).accumulate (hitAt 6)]) by decide)⟩

/-- C11 fails on the code, with every hit logged in the local zone. Hits of seconds 5, 3,
5 leave the store holding the rows of seconds 5 and 3 in that order. A hit of second 5, a
tick at second 7, another hit of second 5 and a tick leave it holding two rows of
second 5. -/
theorem unordered_stream_counterexample :
    (aggregateHits freshStore outOfOrderEvents).map (fun p => p.2.s.map Row.time) =
        some [5 * second, 3 * second] ∧
      (aggregateHits freshStore lateHitEvents).map (fun p => p.2.s.map Row.time) =
        some [5 * second, 5 * second] ∧
      (∀ p ∈ aggregateHits freshStore outOfOrderEvents, ¬ StrictlyIncreasing p.2.s) ∧
      (∀ p ∈ aggregateHits freshStore lateHitEvents, ¬ StrictlyIncreasing p.2.s) := by
  decide

theorem hitCase_flushed {row r : Row} {h : HTTPHit} (hf : (hitCase row h).1 = some r) :
    r = row ∧ row.time ≠ 0 := by
  rcases hitCase_cases row h with ⟨_, hc⟩ | ⟨h0, _, hc⟩ | ⟨_, _, hc⟩
  · rw [hc] at hf; simp at hf
  · rw [hc] at hf
    simp only [Option.some.injEq] at hf
    exact ⟨hf.symm, h0⟩
  · rw [hc] at hf; simp at hf

theorem tickerCase_flushed {row r : Row} {now : Int} (hf : (tickerCase row now).1 = some r) :
    r = row ∧ row.time ≠ 0 := by
  rcases tickerCase_cases row now with ⟨h0, _, hc⟩ | ⟨_, hc⟩
  · rw [hc] at hf
    simp only [Option.some.injEq] at hf
    exact ⟨hf.symm, h0⟩
  · rw [hc] at hf; simp at hf

theorem hitCase_hits (row : Row) (h : HTTPHit) :
    0 ≤ row.totalHits → 1 ≤ (hitCase row h).2.totalHits := by
  intro hrow
  rcases hitCase_cases row h with ⟨_, hc⟩ | ⟨_, _, hc⟩ | ⟨_, _, hc⟩ <;>
    rw [hc] <;> simp only [Row.accumulate, NewRow] <;> omega

/-- C12 (sparsity). For every interleaving of hits and ticks processed from the initial
state, every row passed to `insert` has `totalHits >= 1` and a timestamp other than the
zero time; a tick while no bucket is open (the row's time is the zero time) passes
nothing to `insert` and leaves the row as it is; hence a store that started empty holds,
after the run, only rows with `totalHits >= 1`. -/
theorem sparsity (events : List Event) (row : Row) (now : Int) :
    (∀ p ∈ (handedRows (NewRow 0 Location.nilLoc) events).1, 1 ≤ p.2.totalHits ∧ p.2.time ≠ 0) ∧
      (row.time = 0 → tickerCase row now = (none, row)) ∧
      (∀ (ts ts1 : Timeseries) (row1 : Row), ts.s = [] →
        aggregateHits ts events = some (row1, ts1) → ∀ r ∈ ts1.s, 1 ≤ r.totalHits) := by
  have hinv := handedRows_invariant
    (fun r => 0 ≤ r.totalHits ∧ (r.time ≠ 0 → 1 ≤ r.totalHits))
    (fun r => 1 ≤ r.totalHits ∧ r.time ≠ 0)
    (by
      intro r h ⟨h0, h1⟩
      refine ⟨⟨?_, fun _ => hitCase_hits r h h0⟩, ?_⟩
      · have := hitCase_hits r h h0
        omega
      · intro f hf
        obtain ⟨rfl, hne⟩ := hitCase_flushed hf
        exact ⟨h1 hne, hne⟩)
    (by
      intro r t ⟨h0, h1⟩
      refine ⟨?_, ?_⟩
      · rcases tickerCase_cases r t with ⟨_, _, hc⟩ | ⟨_, hc⟩
        · rw [hc]; simp [NewRow]
        · rw [hc]; exact ⟨h0, h1⟩
      · intro f hf
        obtain ⟨rfl, hne⟩ := tickerCase_flushed hf
        exact ⟨h1 hne, hne⟩)
    events (NewRow 0 Location.nilLoc) (by simp [NewRow])
  refine ⟨hinv.2, ?_, ?_⟩
  · intro h0
    simp [tickerCase, h0]
  · intro ts ts1 row1 hfresh hrun r hr
    obtain ⟨pre, hpre⟩ := stored_of_handed hfresh hrun
    have hmem : r ∈ (handedRows (NewRow 0 Location.nilLoc) events).1.map Prod.snd := by
      rw [hpre]
      exact List.mem_append_right _ hr
    obtain ⟨p, hp, rfl⟩ := List.mem_map.mp hmem
    exact (hinv.2 p hp).1

theorem wrapInt_mod (x : Int) :
    wrapInt x % 18446744073709551616 = x % 18446744073709551616 := by
  unfold wrapInt
  omega

theorem wrapInt_of_range {x : Int} (h0 : 0 ≤ x) (h1 : x < 9223372036854775808) :
    wrapInt x = x := by
  unfold wrapInt
  omega

theorem step_conserves_hit (row : Row) (h : HTTPHit) :
    ((hitCase row h).1.elim 0 Row.totalHits) + (hitCase row h).2.totalHits
        = row.totalHits + 1 ∧
      (((hitCase row h).1.elim 0 Row.totalBits) + (hitCase row h).2.totalBits)
          % 18446744073709551616
        = (row.totalBits + h.bytesSent) % 18446744073709551616 ∧
      (0 ≤ row.totalBits → 0 ≤ h.bytesSent →
        row.totalBits + h.bytesSent < 9223372036854775808 →
        ((hitCase row h).1.elim 0 Row.totalBits) + (hitCase row h).2.totalBits
            = row.totalBits + h.bytesSent ∧
          0 ≤ (hitCase row h).1.elim 0 Row.totalBits ∧
          0 ≤ (hitCase row h).2.totalBits) := by
  have hm := wrapInt_mod (row.totalBits + h.bytesSent)
  have hm0 := wrapInt_mod h.bytesSent
  rcases hitCase_cases row h with ⟨_, hc⟩ | ⟨_, _, hc⟩ | ⟨_, _, hc⟩
  · rw [hc]
    simp only [Row.accumulate, Option.elim, zero_add]
    refine ⟨trivial, hm, ?_⟩
    intro h0 hb hlt
    rw [wrapInt_of_range (by omega) hlt]
    omega
  · rw [hc]
    simp only [Row.accumulate, NewRow, Option.elim, zero_add]
    refine ⟨trivial, by omega, ?_⟩
    intro h0 hb hlt
    rw [wrapInt_of_range hb (by omega)]
    omega
  · rw [hc]
    simp only [Row.accumulate, Option.elim, zero_add]
    refine ⟨trivial, hm, ?_⟩
    intro h0 hb hlt
    rw [wrapInt_of_range (by omega) hlt]
    omega

theorem step_conserves_tick (row : Row) (now : Int) :
    ((tickerCase row now).1.elim 0 Row.totalHits) + (tickerCase row now).2.totalHits
        = row.totalHits ∧
      ((tickerCase row now).1.elim 0 Row.totalBits) + (tickerCase row now).2.totalBits
        = row.totalBits ∧
      (0 ≤ row.totalBits →
        0 ≤ (tickerCase row now).1.elim 0 Row.totalBits ∧
          0 ≤ (tickerCase row now).2.totalBits) := by
  rcases tickerCase_cases row now with ⟨_, _, hc⟩ | ⟨_, hc⟩ <;>
    rw [hc] <;> simp [NewRow]

theorem handedRows_conserves (events : List Event) :
    ∀ row : Row,
      ((handedRows row events).1.map (fun p => p.2.totalHits)).sum
          + (handedRows row events).2.totalHits
        = row.totalHits + ((processedHits events).length : Int) ∧
      (((handedRows row events).1.map (fun p => p.2.totalBits)).sum
          + (handedRows row events).2.totalBits) % 18446744073709551616
        = (row.totalBits + ((processedHits events).map HTTPHit.bytesSent).sum)
          % 18446744073709551616 := by
  induction events with
  | nil => intro row; simp [handedRows, processedHits]
  | cons ev rest ih =>
    intro row
    cases ev with
    | closed => simp [handedRows, processedHits]
    | tick now =>
      obtain ⟨c1, c2, _⟩ := step_conserves_tick row now
      obtain ⟨i1, i2⟩ := ih (tickerCase row now).2
      rw [handedRows_tick]
      cases hf : (tickerCase row now).1 with
      | none =>
        simp only [hf, Option.elim] at c1 c2
        simp only [hf, Option.map_none', Option.toList_none, List.nil_append, processedHits]
        constructor <;> omega
      | some r =>
        simp only [hf, Option.elim] at c1 c2
        simp only [hf, Option.map_some', Option.toList_some, List.singleton_append,
          List.map_cons, List.sum_cons, processedHits]
        constructor <;> omega
    | hit now h =>
      obtain ⟨c1, c2, _⟩ := step_conserves_hit row h
      obtain ⟨i1, i2⟩ := ih (hitCase row h).2
      rw [handedRows_hit]
      cases hf : (hitCase row h).1 with
      | none =>
        simp only [hf, Option.elim] at c1 c2
        simp only [hf, Option.map_none', Option.toList_none, List.nil_append, processedHits,
          List.length_cons, List.map_cons, List.sum_cons, Nat.cast_add, Nat.cast_one]
        constructor <;> omega
      | some r =>
        simp only [hf, Option.elim] at c1 c2
        simp only [hf, Option.map_some', Option.toList_some, List.singleton_append,
          List.map_cons, List.sum_cons, processedHits, List.length_cons, Nat.cast_add,
          Nat.cast_one]
        constructor <;> omega

theorem bytes_nonneg {hits : List HTTPHit} (h : ∀ x ∈ hits, 0 ≤ x.bytesSent) :
    0 ≤ (hits.map HTTPHit.bytesSent).sum := by
  apply List.sum_nonneg
  intro b hb
  obtain ⟨x, hx, rfl⟩ := List.mem_map.mp hb
  exact h x hx

theorem handedRows_conserves_bytes (events : List Event) :
    ∀ row : Row, 0 ≤ row.totalBits →
      (∀ h ∈ processedHits events, 0 ≤ h.bytesSent) →
      row.totalBits + ((processedHits events).map HTTPHit.bytesSent).sum
        < 9223372036854775808 →
      ((handedRows row events).1.map (fun p => p.2.totalBits)).sum
          + (handedRows row events).2.totalBits
        = row.totalBits + ((processedHits events).map HTTPHit.bytesSent).sum := by
  induction events with
  | nil => intro row _ _ _; simp [handedRows, processedHits]
  | cons ev rest ih =>
    intro row hrow hpos hlt
    cases ev with
    | closed => simp [handedRows, processedHits]
    | tick now =>
      simp only [processedHits] at hpos hlt
      obtain ⟨_, c2, c3⟩ := step_conserves_tick row now
      obtain ⟨f0, r0⟩ := c3 hrow
      have i2 := ih (tickerCase row now).2 r0 hpos (by omega)
      rw [handedRows_tick]
      cases hf : (tickerCase row now).1 with
      | none =>
        simp only [hf, Option.elim] at c2
        simp only [hf, Option.map_none', Option.toList_none, List.nil_append, processedHits]
        omega
      | some r =>
        simp only [hf, Option.elim] at c2
        simp only [hf, Option.map_some', Option.toList_some, List.singleton_append,
          List.map_cons, List.sum_cons, processedHits]
        omega
    | hit now h =>
      simp only [processedHits, List.mem_cons, forall_eq_or_imp, List.map_cons,
        List.sum_cons] at hpos hlt
      obtain ⟨hb, hpos⟩ := hpos
      have hrest := bytes_nonneg hpos
      obtain ⟨_, _, c3⟩ := step_conserves_hit row h
      obtain ⟨c2, f0, r0⟩ := c3 hrow hb (by omega)
      have i2 := ih (hitCase row h).2 r0 hpos (by omega)
      rw [handedRows_hit]
      cases hf : (hitCase row h).1 with
      | none =>
        simp only [hf, Option.elim] at c2
        simp only [hf, Option.map_none', Option.toList_none, List.nil_append, processedHits,
          List.map_cons, List.sum_cons]
        omega
      | some r =>
        simp only [hf, Option.elim] at c2
        simp only [hf, Option.map_some', Option.toList_some, List.singleton_append,
          List.map_cons, List.sum_cons, processedHits]
        omega

/-- C19, as the code has it. For every store and every interleaving of hits and ticks,
`aggregateHits` does to the store exactly the inserts of the rows counted here, in order,
and ends with the current row counted here. The number of hit events processed equals the
sum of `totalHits` over the rows inserted plus the `totalHits` of the current row: a flush
neither drops nor counts twice an event, whatever its time, the zero time included. The
sum of the events' `bytesSent` equals the same sum of `totalBits` modulo `2^64`, the
byte counter being a Go `int`; the two are equal when no event has a negative
`bytesSent` and the events' `bytesSent` add up to less than `2^63`. -/
theorem conservation (events : List Event) (ts : Timeseries) :
    aggregateHits ts events =
        (ts.insertAll (handedRows (NewRow 0 Location.nilLoc) events).1).map
          (fun ts1 => ((handedRows (NewRow 0 Location.nilLoc) events).2, ts1)) ∧
      ((processedHits events).length : Int) =
        ((handedRows (NewRow 0 Location.nilLoc) events).1.map (fun p => p.2.totalHits)).sum
          + (handedRows (NewRow 0 Location.nilLoc) events).2.totalHits ∧
      ((processedHits events).map HTTPHit.bytesSent).sum % 18446744073709551616 =
        (((handedRows (NewRow 0 Location.nilLoc) events).1.map (fun p => p.2.totalBits)).sum
          + (handedRows (NewRow 0 Location.nilLoc) events).2.totalBits)
            % 18446744073709551616 ∧
      ((∀ h ∈ processedHits events, 0 ≤ h.bytesSent) →
        ((processedHits events).map HTTPHit.bytesSent).sum < 9223372036854775808 →
        ((processedHits events).map HTTPHit.bytesSent).sum =
          ((handedRows (NewRow 0 Location.nilLoc) events).1.map
              (fun p => p.2.totalBits)).sum
            + (handedRows (NewRow 0 Location.nilLoc) events).2.totalBits) := by
  obtain ⟨h1, h2⟩ := handedRows_conserves events (NewRow 0 Location.nilLoc)
  simp only [NewRow, zero_add] at h1 h2
  refine ⟨aggregateLoop_eq_insertAll events _ ts, h1.symm, h2.symm, ?_⟩
  intro hpos hlt
  have h3 := handedRows_conserves_bytes events (NewRow 0 Location.nilLoc) (le_refl _) hpos
    (by simpa [NewRow] using hlt)
  simp only [NewRow, zero_add] at h3
  exact h3.symm

/-- The steady stream: three hits of ten bytes, two rows inserted, thirty bytes in all. -/
theorem conservation_witness :
    aggregateHits freshStore steadyEvents =
        some (NewRow 0 Location.nilLoc,
          Timeseries.mk (120 * second)
            [((NewRow (5 * second) Location.localLoc).accumulate (hitAt 5)).accumulate
                (hitAt 5),
              (NewRow (6 * second) Location.localLoc).accumulate (hitAt 6)]) ∧
      ((processedHits steadyEvents).length : Int) = 3 ∧
      ((processedHits steadyEvents).map HTTPHit.bytesSent).sum = 30 ∧
      ((processedHits steadyEvents).map HTTPHit.bytesSent).sum =
        ((handedRows (NewRow 0 Location.nilLoc) steadyEvents).1.map
            (fun p => p.2.totalBits)).sum
          + (handedRows (NewRow 0 Location.nilLoc) steadyEvents).2.totalBits :=
  ⟨by decide, by decide, by decide,
    (conservation steadyEvents freshStore).2.2.2 (by decide) (by decide)⟩

/-- C19 fails on the code for the bytes: two hits of second 5, each with the largest Go
`int` as its byte count, leave the current row with `totalBits = -2` and nothing
inserted, while the events' `bytesSent` add up to `18446744073709551614`. -/
theorem conservation_bytes_counterexample :
    (aggregateHits freshStore hugeEvents).map (fun p => (p.1.totalBits, p.2.s)) =
        some (-2, []) ∧
      (handedRows (NewRow 0 Location.nilLoc) hugeEvents).1 = [] ∧
      (handedRows (NewRow 0 Location.nilLoc) hugeEvents).2.totalBits = -2 ∧
      ((processedHits hugeEvents).map HTTPHit.bytesSent).sum = 18446744073709551614 ∧
      ((processedHits hugeEvents).map HTTPHit.bytesSent).sum ≠
        ((handedRows (NewRow 0 Location.nilLoc) hugeEvents).1.map
            (fun p => p.2.totalBits)).sum
          + (handedRows (NewRow 0 Location.nilLoc) hugeEvents).2.totalBits := by
  decide

/-- C16 on the code, at the failing input. A hit whose date could not be parsed leaves
the row with the zero time, that is with no bucket open, and with one hit counted. The
next hit, of second 5, passes nothing to `insert` and makes that same row the bucket of
second 5: it then holds 2 hits and 20 bytes, 2 of them on section `/a`, where a bucket
opened from zero counts would hold 1 hit and 10 bytes. -/
theorem hit_after_undated :
    hitCase (NewRow 0 Location.nilLoc) undatedHit = (none, (NewRow 0 Location.nilLoc).accumulate undatedHit) ∧
      ((NewRow 0 Location.nilLoc).accumulate undatedHit).time = 0 ∧
      ((NewRow 0 Location.nilLoc).accumulate undatedHit).totalHits = 1 ∧
      (hitCase ((NewRow 0 Location.nilLoc).accumulate undatedHit) (hitAt 5)).1 = none ∧
      (hitCase ((NewRow 0 Location.nilLoc).accumulate undatedHit) (hitAt 5)).2.time = 5 * second ∧
      (hitCase ((NewRow 0 Location.nilLoc).accumulate undatedHit) (hitAt 5)).2.totalHits = 2 ∧
      (hitCase ((NewRow 0 Location.nilLoc).accumulate undatedHit) (hitAt 5)).2.totalBits = 20 ∧
      (hitCase ((NewRow 0 Location.nilLoc).accumulate undatedHit) (hitAt 5)).2.perSectionHits.lookup "/a"
        = some 2 ∧
      ((NewRow (5 * second) Location.localLoc).accumulate (hitAt 5)).totalHits = 1 ∧
      (hitCase ((NewRow 0 Location.nilLoc).accumulate undatedHit) (hitAt 5)).2
        ≠ (NewRow (5 * second) Location.localLoc).accumulate (hitAt 5) := by
  decide

/-- C17 on the code, at the failing inputs. A hit of second 5 logged with an offset that
is not the local one opens a bucket whose time carries a fabricated location. A tick half
a second later, whose `now` truncated to the second is the bucket's own second, still
finds the two times unequal under `!=`, passes the bucket to `insert` and clears it; with
a second such hit and a later tick the store ends with two rows of second 5. And after an
undated hit the row holds one counted event under the zero time: a tick in second 7
passes nothing to `insert` and keeps the row. -/
theorem tick_flushes_same_second :
    hitCase (NewRow 0 Location.nilLoc) (foreignHitAt 5) =
        (none, (NewRow (5 * second) (Location.fixedZone 1)).accumulate (foreignHitAt 5)) ∧
      timeTruncate (5 * second + 500000000) second =
        ((NewRow (5 * second) (Location.fixedZone 1)).accumulate (foreignHitAt 5)).time ∧
      tickerCase ((NewRow (5 * second) (Location.fixedZone 1)).accumulate (foreignHitAt 5))
          (5 * second + 500000000) =
        (some ((NewRow (5 * second) (Location.fixedZone 1)).accumulate (foreignHitAt 5)),
          NewRow 0 Location.nilLoc) ∧
      (aggregateHits freshStore foreignEvents).map (fun p => p.2.s.map Row.time) =
        some [5 * second, 5 * second] ∧
      ((NewRow 0 Location.nilLoc).accumulate undatedHit).totalHits = 1 ∧
      timeTruncate (7 * second) second ≠
        ((NewRow 0 Location.nilLoc).accumulate undatedHit).time ∧
      tickerCase ((NewRow 0 Location.nilLoc).accumulate undatedHit) (7 * second) =
        (none, (NewRow 0 Location.nilLoc).accumulate undatedHit) := by
  decide

/-- C13 on the code, at the failing input. The retention of minus one second is an exact
multiple of one second, and `NewTimeseries` neither returns a store nor an error: it
panics in `make`, asked for a negative capacity. -/
theorem newTimeseries_negative :
    (-1 * second) % second = 0 ∧
      durTruncate (-1 * second) second = -1 * second ∧
      Int.tdiv (-1 * second) second = -1 ∧
      NewTimeseries (-1 * second) = none :=
  ⟨by decide, by decide, by decide, rfl⟩

theorem newTimeseries_error_iff (retention : Int) :
    (∃ msg, NewTimeseries retention = some (.error msg)) ↔ retention % second ≠ 0 := by
  have htr := durTruncate_second retention
  unfold NewTimeseries
  constructor
  · rintro ⟨msg, h⟩
    split_ifs at h with h1 h2
    · rw [htr] at h1
      unfold second
      split_ifs at h1 <;> omega
    · simp at h
  · intro h
    have h1 : durTruncate retention second ≠ retention := by
      rw [htr]
      unfold second at h
      split_ifs <;> omega
    exact ⟨_, by rw [if_pos h1]⟩

theorem newTimeseries_succeeds (retention : Int) (h0 : 0 ≤ retention)
    (hmul : retention % second = 0) :
    NewTimeseries retention = some (.ok (Timeseries.mk retention [])) := by
  have htr := durTruncate_second retention
  have h1 : ¬ (durTruncate retention second ≠ retention) := by
    rw [htr]
    unfold second at hmul
    rw [if_pos h0]
    omega
  have h2 : ¬ (Int.tdiv retention second < 0) := by
    rw [Int.tdiv_eq_ediv h0 (by decide)]
    unfold second
    omega
  unfold NewTimeseries
  rw [if_neg h1, if_neg h2]

/-- C15 on the code, at the failing input. A row of second 0 inserted 500 seconds later
into the empty store of 120s retention is appended, then deleted as expired, and the loop
reads `ts.s[0]` of the empty slice: `insert` panics. The same happens inside the
aggregator when a hit of second 2 flushes the row of second 1 at second 500. -/
theorem insert_expired_panics :
    since (500 * second) (plainRow 0).time > freshStore.retention ∧
      freshStore.insert (500 * second) (plainRow 0) = none ∧
      aggregateHits freshStore
        [Event.hit (500 * second) (hitAt 1), Event.hit (500 * second) (hitAt 2)] = none := by
  decide

theorem insert_returns_iff (ts : Timeseries) (now : Int) (row : Row) :
    (∃ ts1, ts.insert now row = some ts1) ↔
      ∃ r ∈ ts.s ++ [row], since now r.time ≤ ts.retention := by
  unfold Timeseries.insert
  generalize ts.s ++ [row] = l
  induction l with
  | nil => simp [evictExpired]
  | cons r rest ih =>
    unfold evictExpired
    by_cases h : since now r.time > ts.retention
    · rw [if_pos h, ih]
      constructor
      · rintro ⟨x, hx, hle⟩
        exact ⟨x, List.mem_cons_of_mem r hx, hle⟩
      · rintro ⟨x, hx, hle⟩
        rcases List.mem_cons.mp hx with rfl | hx
        · omega
        · exact ⟨x, hx, hle⟩
    · rw [if_neg h]
      simp only [Option.map_some', Option.some.injEq, exists_eq', true_iff]
      exact ⟨r, List.mem_cons_self r rest, not_lt.mp h⟩


/-! ## Section of a hit -/

theorem sectionOfPath_of_slash {path : String} {rest : List Char}
    (h : path.toList = '/' :: rest) : sectionOfPath path = specSection path := by
  unfold sectionOfPath specSection pathSegments
  simp only [h, splitSlash, if_true, List.length_cons]
  by_cases hlen : (splitSlash rest).length < 2
  · rw [if_pos (by omega), if_pos hlen]
  · rw [if_neg (by omega), if_neg hlen]
    cases splitSlash rest with
    | nil => rfl
    | cons p ps => rfl

/-- C14, as the code has it. `NewHTTPHit` sets the section to `nosection` when
`strings.Split(path, "/")` has at most two pieces and otherwise to `/` followed by the
second piece. For every request path that begins with `/`, and for the empty path, that
is: `nosection` when the path has fewer than two segments delimited by `/` after its
leading `/`, otherwise `/` followed by the first segment. `/api/v1/x` gives `/api`; `/`
and the empty path give `nosection`. -/
theorem section_derivation (parseTime : String → Option (Int × Location))
    (atoi : String → Option Int)
    (date method path statusCode bytesSent : String) :
    (NewHTTPHit parseTime atoi date method path statusCode bytesSent).hitSection =
        (if (splitSlash path.toList).length ≤ 2 then "nosection"
          else "/" ++ String.mk ((splitSlash path.toList).getD 1 [])) ∧
      ((path = "" ∨ ∃ rest, path.toList = '/' :: rest) →
        (NewHTTPHit parseTime atoi date method path statusCode bytesSent).hitSection =
          specSection path) ∧
      (NewHTTPHit parseTime atoi date method "/api/v1/x" statusCode bytesSent).hitSection
        = "/api" ∧
      (NewHTTPHit parseTime atoi date method "/" statusCode bytesSent).hitSection
        = "nosection" ∧
      (NewHTTPHit parseTime atoi date method "" statusCode bytesSent).hitSection
        = "nosection" := by
  refine ⟨rfl, ?_, ?_, ?_, ?_⟩
  · rintro (rfl | ⟨rest, hrest⟩)
    · show sectionOfPath "" = specSection ""
      decide
    · exact sectionOfPath_of_slash hrest
  · show sectionOfPath "/api/v1/x" = "/api"
    decide
  · show sectionOfPath "/" = "nosection"
    decide
  · show sectionOfPath "" = "nosection"
    decide

/-- C14 fails for a path that does not begin with `/`: `api/v1/x` has the three
segments `api`, `v1`, `x` and gets the section `/v1`, not `/api`; `a/b` has two segments
and gets `nosection`, not `/a`. -/
theorem section_relative_counterexample :
    (NewHTTPHit (fun _ => none) (fun _ => none) "" "GET" "api/v1/x" "200" "10").hitSection
        = "/v1" ∧
      specSection "api/v1/x" = "/api" ∧
      (NewHTTPHit (fun _ => none) (fun _ => none) "" "GET" "a/b" "200" "10").hitSection
        = "nosection" ∧
      specSection "a/b" = "/a" ∧
      (NewHTTPHit (fun _ => none) (fun _ => none) "" "GET" "api/v1/x" "200" "10").hitSection
        ≠ specSection "api/v1/x" := by
  decide

/-! ## Alternation of the notifications -/

theorem runFrom_alternates (a : Alerter) :
    ∀ (samples : List F64) (st : alertState),
      (a.runFrom st samples).2.map Write.format =
          alternation st.isHigh (sideChanges a.threshold st.isHigh samples) ∧
        (a.runFrom st samples).1.isHigh =
          (match samples.getLast? with
            | some r => F64.ge r a.threshold
            | none => st.isHigh) := by
  intro samples
  induction samples with
  | nil => intro st; simp [Alerter.runFrom, sideChanges, alternation]
  | cons r rest ih =>
    intro st
    have hlast : (r :: rest).getLast? = some (rest.getLast?.getD r) := List.getLast?_cons
    cases hge : F64.ge r a.threshold
    · obtain ⟨ih1, ih2⟩ := ih alertState.AlertLowState
      simp only [Alerter.runFrom, tick_not_ge st hge, sideChanges, hge, hlast]
      cases st
      · refine ⟨by simpa [alertState.isHigh] using ih1, ?_⟩
        rw [ih2]
        cases rest.getLast? <;> simp [alertState.isHigh, hge]
      · refine ⟨?_, ?_⟩
        · simp only [alertState.isHigh, reduceCtorEq, if_false, List.singleton_append,
            List.map_cons, alertRecovered, Bool.false_eq_true, Nat.add_comm 1, alternation,
            if_true, Bool.not_true]
          simpa [alertState.isHigh] using ih1
        · rw [ih2]
          cases rest.getLast? <;> simp [alertState.isHigh, hge]
    · obtain ⟨ih1, ih2⟩ := ih alertState.AlertHighState
      simp only [Alerter.runFrom, tick_ge st hge, sideChanges, hge, hlast]
      cases st
      · refine ⟨?_, ?_⟩
        · simp only [alertState.isHigh, reduceCtorEq, if_false, List.singleton_append,
            List.map_cons, Alerter.enterAlert, Bool.true_eq_false, Nat.add_comm 1, alternation,
            Bool.false_eq_true, Bool.not_false]
          simpa [alertState.isHigh] using ih1
        · rw [ih2]
          cases rest.getLast? <;> simp [alertState.isHigh, hge]
      · refine ⟨by simpa [alertState.isHigh] using ih1, ?_⟩
        rw [ih2]
        cases rest.getLast? <;> simp [alertState.isHigh, hge]

theorem alternation_length (n : Nat) : ∀ high : Bool, (alternation high n).length = n := by
  induction n with
  | zero => intro high; rfl
  | succ k ih => intro high; simp [alternation, ih]

theorem alternation_chain (n : Nat) :
    ∀ high : Bool, (alternation high n).Chain' (fun x y => x ≠ y) := by
  have hne : msgRecovered ≠ msgHighTraffic := by decide
  induction n with
  | zero => intro high; simp [alternation]
  | succ k ih =>
    intro high
    cases k with
    | zero => simp [alternation]
    | succ j =>
      have := ih (!high)
      simp only [alternation] at this ⊢
      refine List.Chain'.cons ?_ this
      cases high <;> simp [hne, Ne.symm hne]

/-- C18 (alternation). Started in `AlertLowState`, for every finite sequence of samples the
messages written alternate enter-alert, `Alert recovered`, enter-alert, ..., the first
being the enter-alert message, no two consecutive messages being of the same kind; their
number is the number of samples whose side of the threshold differs from the side of the
sample before (the side before the first sample being below); and the final state is
`AlertHighState` exactly when there is a last sample and it is `>= threshold`. -/
theorem notifications_alternate (a : Alerter) (samples : List F64) :
    (a.PrintAlertStateChange samples).2.map Write.format =
        alternation false (sideChanges a.threshold false samples) ∧
      ((a.PrintAlertStateChange samples).2.map Write.format).Chain' (fun x y => x ≠ y) ∧
      (a.PrintAlertStateChange samples).2.length = sideChanges a.threshold false samples ∧
      ((a.PrintAlertStateChange samples).1 = alertState.AlertHighState ↔
        ∃ r, samples.getLast? = some r ∧ F64.ge r a.threshold = true) := by
  obtain ⟨h1, h2⟩ := runFrom_alternates a samples alertState.AlertLowState
  unfold Alerter.PrintAlertStateChange
  simp only [alertState.isHigh] at h1 h2
  refine ⟨h1, ?_, ?_, ?_⟩
  · rw [h1]
    exact alternation_chain _ _
  · have := congrArg List.length h1
    rw [List.length_map, alternation_length] at this
    exact this
  · cases hs : (a.runFrom alertState.AlertLowState samples).1 <;>
      cases hl : samples.getLast? <;>
      simp_all [alertState.isHigh]


/-! ## Consistency of the rows -/

theorem sum_kerase (k : sectionName) :
    ∀ l : List (Sigma (fun _ : sectionName => Int)),
      (l.map (fun e => e.2)).sum =
        (List.dlookup k l).getD 0 + ((List.kerase k l).map (fun e => e.2)).sum := by
  intro l
  induction l with
  | nil => simp
  | cons e rest ih =>
    obtain ⟨a, b⟩ := e
    by_cases h : k = a
    · subst h
      simp [List.dlookup_cons_eq, List.kerase_cons_eq]
    · have hne : k ≠ (Sigma.mk a b : Sigma (fun _ : sectionName => Int)).1 := h
      rw [List.dlookup_cons_ne rest _ hne, List.kerase_cons_ne hne]
      simp only [List.map_cons, List.sum_cons]
      rw [ih]
      ring

theorem accumulate_consistent {row : Row} (h : HTTPHit) (hrow : row.Consistent) :
    (row.accumulate h).Consistent := by
  obtain ⟨hsum, hpos⟩ := hrow
  have hlook : 0 ≤ (row.perSectionHits.lookup h.hitSection).getD 0 := by
    cases hl : row.perSectionHits.lookup h.hitSection with
    | none => simp
    | some v =>
      have hv : 1 ≤ v := hpos ⟨h.hitSection, v⟩ (AList.mem_lookup_iff.mp hl)
      simp only [Option.getD_some]
      omega
  constructor
  · show row.totalHits + 1 = _
    simp only [Row.accumulate, AList.insert_entries, List.map_cons, List.sum_cons]
    have := sum_kerase h.hitSection row.perSectionHits.entries
    have hl : List.dlookup h.hitSection row.perSectionHits.entries
        = row.perSectionHits.lookup h.hitSection := rfl
    rw [hl] at this
    omega
  · intro e he
    simp only [Row.accumulate, AList.insert_entries, List.mem_cons] at he
    rcases he with rfl | he
    · show 1 ≤ (row.perSectionHits.lookup h.hitSection).getD 0 + 1
      omega
    · exact hpos e ((List.kerase_sublist _ _).subset he)

theorem newRow_consistent (t : Int) (l : Location) : (NewRow t l).Consistent := by
  constructor
  · rfl
  · intro e he
    cases he

theorem handedRows_consistent (events : List Event) :
    (handedRows (NewRow 0 Location.nilLoc) events).2.Consistent ∧
      ∀ p ∈ (handedRows (NewRow 0 Location.nilLoc) events).1, p.2.Consistent := by
  apply handedRows_invariant Row.Consistent Row.Consistent _ _ events (NewRow 0 Location.nilLoc)
    (newRow_consistent 0 _)
  · intro row h hrow
    refine ⟨?_, ?_⟩
    · rcases hitCase_cases row h with ⟨_, hc⟩ | ⟨_, _, hc⟩ | ⟨_, _, hc⟩
      · rw [hc]; exact accumulate_consistent h hrow
      · rw [hc]; exact accumulate_consistent h (newRow_consistent _ _)
      · rw [hc]; exact accumulate_consistent h hrow
    · intro r hf
      obtain ⟨rfl, _⟩ := hitCase_flushed hf
      exact hrow
  · intro row now hrow
    refine ⟨?_, ?_⟩
    · rcases tickerCase_cases row now with ⟨_, _, hc⟩ | ⟨_, hc⟩
      · rw [hc]; exact newRow_consistent 0 _
      · rw [hc]; exact hrow
    · intro r hf
      obtain ⟨rfl, _⟩ := tickerCase_flushed hf
      exact hrow

theorem sum_windowHits_swap (keys : List sectionName) :
    ∀ rows : List Row,
      (keys.map (windowHits rows)).sum =
        (rows.map (fun r =>
          (keys.map (fun k => (r.perSectionHits.lookup k).getD 0)).sum)).sum := by
  intro rows
  induction rows with
  | nil =>
    have hzero : windowHits [] = fun _ => 0 := by
      funext k
      simp [windowHits]
    rw [hzero]
    simp
  | cons r rest ih =>
    have hsplit : windowHits (r :: rest) =
        fun k => (r.perSectionHits.lookup k).getD 0 + windowHits rest k := by
      funext k
      simp [windowHits]
    rw [hsplit, List.sum_map_add, ih]
    simp

theorem sum_lookup_of_keys_subset (r : Row) {keys : List sectionName} (hnd : keys.Nodup)
    (hsub : ∀ k ∈ r.perSectionHits.keys, k ∈ keys) :
    (keys.map (fun k => (r.perSectionHits.lookup k).getD 0)).sum =
      (r.perSectionHits.entries.map (fun e => e.2)).sum := by
  rw [← List.sum_toFinset _ hnd]
  have hkeys : (r.perSectionHits.entries.map (fun e => e.2)) =
      r.perSectionHits.keys.map (fun k => (r.perSectionHits.lookup k).getD 0) := by
    show _ = (r.perSectionHits.entries.map Sigma.fst).map _
    rw [List.map_map]
    apply List.map_congr_left
    intro e he
    obtain ⟨k, v⟩ := e
    have : r.perSectionHits.lookup k = some v := AList.mem_lookup_iff.mpr he
    simp [this]
  rw [hkeys, ← List.sum_toFinset _ r.perSectionHits.keys_nodup]
  symm
  apply Finset.sum_subset
  · intro k hk
    rw [List.mem_toFinset] at hk ⊢
    exact hsub k hk
  · intro k _ hk
    rw [List.mem_toFinset] at hk
    have : r.perSectionHits.lookup k = none :=
      AList.lookup_eq_none.mpr (fun hmem => hk (AList.mem_keys.mp hmem))
    simp [this]

theorem window_hits_total {rows : List Row} (hrows : ∀ r ∈ rows, r.Consistent) :
    ((windowStats rows).map SectionStats.hits).sum = (rows.map Row.totalHits).sum := by
  have hmap : (windowStats rows).map SectionStats.hits =
      (windowSections rows).map (windowHits rows) := by
    unfold windowStats
    rw [List.map_map]
    rfl
  rw [hmap, sum_windowHits_swap]
  congr 1
  apply List.map_congr_left
  intro r hr
  have hnd : (windowSections rows).Nodup := List.nodup_dedup _
  have hsub : ∀ k ∈ r.perSectionHits.keys, k ∈ windowSections rows :=
    fun k hk => mem_windowSections.mpr ⟨r, hr, AList.mem_keys.mpr hk⟩
  rw [sum_lookup_of_keys_subset r hnd hsub]
  exact (hrows r hr).1.symm

theorem getRowsSince_subset (ts : Timeseries) (now d : Int) :
    ∀ r ∈ ts.GetRowsSince now d, r ∈ ts.s := by
  intro r hr
  have := (List.takeWhile_sublist (inWindow now d) (l := ts.s.reverse)).subset hr
  exact List.mem_reverse.mp this

/-- C20 (per-bucket consistency). For every interleaving of hits and ticks processed from
the initial state, the current row and every row passed to `insert` have `totalHits` equal
to the sum of their per-section counts, each stored count being at least 1. Hence, in a
store that started empty, for every instant and window the merged per-section counts of
the rows of `GetRowsSince(d)` (as `TopNSectionsSince` returns them when `n` covers all
the sections) add up to the hit total that `GetAvgRate` sums over the same rows. -/
theorem per_bucket_consistency (events : List Event) :
    (handedRows (NewRow 0 Location.nilLoc) events).2.Consistent ∧
      (∀ p ∈ (handedRows (NewRow 0 Location.nilLoc) events).1, p.2.Consistent) ∧
      ∀ (ts ts1 : Timeseries) (row1 : Row), ts.s = [] →
        aggregateHits ts events = some (row1, ts1) →
        ∀ now d : Int,
          ((windowStats (ts1.GetRowsSince now d)).map SectionStats.hits).sum
              = (sumRates (ts1.GetRowsSince now d)).1 ∧
            ∀ (mo : MapOrder) (ss : SliceSort) (n : Int) (out : List SectionStats),
              ((windowSections (ts1.GetRowsSince now d)).length : Int) ≤ n →
              ts1.TopNSectionsSince mo ss now n d = some out →
              (out.map SectionStats.hits).sum = (sumRates (ts1.GetRowsSince now d)).1 := by
  obtain ⟨hcur, hhanded⟩ := handedRows_consistent events
  refine ⟨hcur, hhanded, ?_⟩
  intro ts ts1 row1 hfresh hrun now d
  obtain ⟨pre, hpre⟩ := stored_of_handed hfresh hrun
  have hrows : ∀ r ∈ ts1.GetRowsSince now d, r.Consistent := by
    intro r hr
    have hmem : r ∈ (handedRows (NewRow 0 Location.nilLoc) events).1.map Prod.snd := by
      rw [hpre]
      exact List.mem_append_right _ (getRowsSince_subset ts1 now d r hr)
    obtain ⟨p, hp, rfl⟩ := List.mem_map.mp hmem
    exact hhanded p hp
  have htotal := window_hits_total hrows
  rw [sumRates_eq]
  refine ⟨htotal, ?_⟩
  intro mo ss n out hn hout
  obtain ⟨_, all, hperm, _, rfl⟩ := topN_some hout
  have hlen : all.length = (windowSections (ts1.GetRowsSince now d)).length := by
    rw [hperm.length_eq, ← windowStats_names, List.length_map]
  rw [List.take_of_length_le (by omega), ← htotal]
  exact (hperm.map SectionStats.hits).sum_eq

theorem evictExpired_evicted {now ret : Int} :
    ∀ {l out : List Row}, evictExpired now ret l = some out →
      ∃ pre, l = pre ++ out ∧ ∀ r ∈ pre, since now r.time > ret := by
  intro l
  induction l with
  | nil => intro out h; simp [evictExpired] at h
  | cons r rest ih =>
    intro out h
    unfold evictExpired at h
    split_ifs at h with hc
    · obtain ⟨pre, hpre, hall⟩ := ih h
      refine ⟨r :: pre, by simp [hpre], ?_⟩
      intro x hx
      rcases List.mem_cons.mp hx with rfl | hx
      · exact hc
      · exact hall x hx
    · exact ⟨[], by simpa using h, by simp⟩

theorem insert_result {ts ts1 : Timeseries} {now : Int} {row : Row}
    (h : ts.insert now row = some ts1) :
    ts1.retention = ts.retention ∧
      ∃ pre, ts.s ++ [row] = pre ++ ts1.s ∧ ∀ r ∈ pre, since now r.time > ts.retention := by
  unfold Timeseries.insert at h
  cases he : evictExpired now ts.retention (ts.s ++ [row]) with
  | none => simp [he] at h
  | some out =>
    simp only [he, Option.map_some', Option.some.injEq] at h
    subst h
    exact ⟨rfl, evictExpired_evicted he⟩

end MonitorHttpLog
